import Mathlib

/-!
# LevelDB `Arena` (util/arena.h, util/arena.cc)

A shallow embedding of the bump-pointer arena and a verification of its
allocation contract.

Modelling conventions.

* The platform is LP64: `size_t` and `uintptr_t` are 64 bits wide and
  `sizeof(void*) = sizeof(char*) = 8`.  Values of type `size_t` are natural
  numbers; every `size_t` addition and subtraction of the source is written
  with an explicit reduction modulo `2 ^ 64`.
* A `char*` is a block handle together with a byte offset (`Ptr`).  The handle
  is the index of the block in `blocks_`; `nullptr` has no handle.  Blocks are
  distinct objects: bytes of different blocks never coincide.  The integer
  value of a pointer (`reinterpret_cast<uintptr_t>`) is the base address of its
  block plus the offset.
* `blocks_` is a `std::vector<char*>`; each entry is kept as the base address
  of the block together with the length it was allocated with.
* `new char[n]` is the system allocator.  It is a parameter `sys` of every
  operation: given the blocks that are live and the requested length it
  answers with the base address of a fresh block, or with nothing when it
  throws `std::bad_alloc`.
* `assert(e)` is modelled with assertions enabled: a failing assertion ends
  the call with `Err.assertion`.
* `memory_usage_` is a relaxed atomic counter; only its value is modelled.
* The destructor is modelled by the trace of its `delete[]` calls.
-/

namespace leveldb

/-- Number of values of `size_t` (and of `uintptr_t`). -/
def SIZE_MOD : Nat := 2 ^ 64

/-- The value of `sizeof(void*)`, which is also `sizeof(char*)`. -/
def sizeof_ptr : Nat := 8

/-- The constant `static const int kBlockSize = 4096;` of arena.cc. -/
def kBlockSize : Nat := 4096

/-- Addition of two `size_t` values. -/
def addSz (a b : Nat) : Nat := (a + b) % SIZE_MOD

/-- Subtraction of two `size_t` values. -/
def subSz (a b : Nat) : Nat := (a + SIZE_MOD - b % SIZE_MOD) % SIZE_MOD

/-- One entry of `blocks_`: the `char*` returned by `new char[size]`, kept as
its base address, together with the length that was requested for it. -/
structure Block where
  base : Nat
  size : Nat
  deriving DecidableEq, Repr

/-- A `char*`: the handle of the block it points into (`none` for a pointer
derived from `nullptr`) and the byte offset from the start of that block. -/
structure Ptr where
  blk : Option Nat
  off : Nat
  deriving DecidableEq, Repr

/-- The null pointer. -/
def nullptr : Ptr := ⟨none, 0⟩

/-- Pointer arithmetic `p + n`. -/
def Ptr.add (p : Ptr) (n : Nat) : Ptr := ⟨p.blk, p.off + n⟩

/-- The members of `class Arena`. -/
structure Arena where
  alloc_ptr_ : Ptr
  alloc_bytes_remaining_ : Nat
  blocks_ : List Block
  memory_usage_ : Nat
  deriving DecidableEq, Repr

/-- The two ways a call can end without returning. -/
inductive Err where
  | assertion
  | bad_alloc
  deriving DecidableEq, Repr

/-- The system allocator behind `new char[n]`: from the live blocks and the
requested length to the base address of the new block, or `none` when the
allocation fails. -/
abbrev Sys := List Block → Nat → Option Nat

/-- Base address of the block with handle `h` (address 0 for the null handle
and for a handle that names no block). -/
def blockBase (blocks : List Block) : Option Nat → Nat
  | none => 0
  | some i => match blocks[i]? with
    | some b => b.base
    | none => 0

/-- The cast `reinterpret_cast<uintptr_t>(p)`. -/
def uintptr (blocks : List Block) (p : Ptr) : Nat :=
  (blockBase blocks p.blk + p.off) % SIZE_MOD

/-- The constructor `Arena::Arena()`. -/
def Arena.new : Arena :=
  { alloc_ptr_ := nullptr, alloc_bytes_remaining_ := 0, blocks_ := [], memory_usage_ := 0 }

/-- The accessor `Arena::MemoryUsage()`. -/
def Arena.MemoryUsage (s : Arena) : Nat := s.memory_usage_

/-- The method `Arena::AllocateNewBlock(block_bytes)`. -/
def AllocateNewBlock (sys : Sys) (s : Arena) (block_bytes : Nat) : Except Err (Ptr × Arena) :=
  match sys s.blocks_ block_bytes with
  | none => .error Err.bad_alloc
  | some a =>
    let result : Ptr := ⟨some s.blocks_.length, 0⟩
    .ok (result,
      { s with
        blocks_ := s.blocks_ ++ [⟨a, block_bytes⟩]
        memory_usage_ := addSz s.memory_usage_ (addSz block_bytes sizeof_ptr) })

/-- The method `Arena::AllocateFallback(bytes)`. -/
def AllocateFallback (sys : Sys) (s : Arena) (bytes : Nat) : Except Err (Ptr × Arena) :=
  if bytes > kBlockSize / 4 then
    AllocateNewBlock sys s bytes
  else
    match AllocateNewBlock sys s kBlockSize with
    | .error e => .error e
    | .ok (p, s1) =>
      let s2 : Arena := { s1 with alloc_ptr_ := p, alloc_bytes_remaining_ := kBlockSize }
      let result := s2.alloc_ptr_
      .ok (result,
        { s2 with
          alloc_ptr_ := s2.alloc_ptr_.add bytes
          alloc_bytes_remaining_ := subSz s2.alloc_bytes_remaining_ bytes })

/-- The method `Arena::Allocate(bytes)`. -/
def Allocate (sys : Sys) (s : Arena) (bytes : Nat) : Except Err (Ptr × Arena) :=
  if bytes > 0 then
    if bytes ≤ s.alloc_bytes_remaining_ then
      let result := s.alloc_ptr_
      .ok (result,
        { s with
          alloc_ptr_ := s.alloc_ptr_.add bytes
          alloc_bytes_remaining_ := subSz s.alloc_bytes_remaining_ bytes })
    else
      AllocateFallback sys s bytes
  else
    .error Err.assertion

/-- The local constant `align` of `Arena::AllocateAligned`. -/
def align : Nat := if sizeof_ptr > 8 then sizeof_ptr else 8

/-- The local `slop` of `Arena::AllocateAligned`, from the cursor. -/
def slopOf (s : Arena) : Nat :=
  let current_mod := uintptr s.blocks_ s.alloc_ptr_ &&& (align - 1)
  if current_mod = 0 then 0 else align - current_mod

/-- The method `Arena::AllocateAligned(bytes)`. -/
def AllocateAligned (sys : Sys) (s : Arena) (bytes : Nat) : Except Err (Ptr × Arena) :=
  let slop := slopOf s
  let needed := addSz bytes slop
  let r : Except Err (Ptr × Arena) :=
    if needed ≤ s.alloc_bytes_remaining_ then
      .ok (s.alloc_ptr_.add slop,
        { s with
          alloc_ptr_ := s.alloc_ptr_.add needed
          alloc_bytes_remaining_ := subSz s.alloc_bytes_remaining_ needed })
    else
      AllocateFallback sys s bytes
  match r with
  | .error e => .error e
  | .ok (result, s1) =>
    if uintptr s1.blocks_ result &&& (align - 1) = 0 then .ok (result, s1)
    else .error Err.assertion

/-- A request issued to the arena by its client. -/
inductive Call where
  | Allocate (bytes : Nat)
  | AllocateAligned (bytes : Nat)
  deriving DecidableEq, Repr

/-- The number of bytes a request asks for. -/
def Call.bytes : Call → Nat
  | .Allocate b => b
  | .AllocateAligned b => b

/-- Issue one request. -/
def Call.exec (sys : Sys) (s : Arena) : Call → Except Err (Ptr × Arena)
  | .Allocate b => leveldb.Allocate sys s b
  | .AllocateAligned b => leveldb.AllocateAligned sys s b

/-- The byte range handed to a caller: `len` bytes starting at `ptr`. -/
structure Region where
  ptr : Ptr
  len : Nat
  deriving DecidableEq, Repr

/-- Issue a sequence of requests in order, collecting the returned regions.
The first call that does not return ends the run with its error. -/
def run (sys : Sys) : Arena → List Call → Except Err (List Region × Arena)
  | s, [] => .ok ([], s)
  | s, c :: cs =>
    match c.exec sys s with
    | .error e => .error e
    | .ok (p, s1) =>
      match run sys s1 cs with
      | .error e => .error e
      | .ok (out, s2) => .ok (⟨p, c.bytes⟩ :: out, s2)

/-- A sequence of `Allocate` calls with the given sizes. -/
def runAllocate (sys : Sys) (s : Arena) (sizes : List Nat) : Except Err (List Region × Arena) :=
  run sys s (sizes.map Call.Allocate)

/-- The region `r` lies inside the block with handle `i` of `blocks`. -/
def Region.InBlock (blocks : List Block) (r : Region) (i : Nat) : Prop :=
  r.ptr.blk = some i ∧ ∃ b, blocks[i]? = some b ∧ r.ptr.off + r.len ≤ b.size

/-- Two regions share a byte: they are in the same block and some offset lies
in both ranges `[off, off + len)`. -/
def Region.Overlaps (r1 r2 : Region) : Prop :=
  r1.ptr.blk = r2.ptr.blk ∧
    max r1.ptr.off r2.ptr.off < min (r1.ptr.off + r1.len) (r2.ptr.off + r2.len)

instance (r1 r2 : Region) : Decidable (r1.Overlaps r2) := by
  unfold Region.Overlaps; infer_instance

/-- Bytes committed to the blocks of a block list: every block's length plus
one pointer-sized bookkeeping unit per block. -/
def footprint (blocks : List Block) : Nat :=
  (blocks.map (fun b => b.size + sizeof_ptr)).sum

/-- Every block the allocator hands out starts at an address divisible by
`align`. -/
def SysAligned (sys : Sys) : Prop :=
  ∀ blocks n a, sys blocks n = some a → align ∣ a

/-- The allocator respects the address space: it hands out a block only if the
bytes committed afterwards (block lengths and one `char*` slot of `blocks_` per
block) fit below `2 ^ 64`. -/
def SysBounded (sys : Sys) : Prop :=
  ∀ blocks n a, sys blocks n = some a → footprint blocks + (n + sizeof_ptr) < SIZE_MOD

/-- A concrete system allocator: blocks are carved upwards from address 4096 at
16-byte granularity, and a request that does not fit in the address space
fails. -/
def bumpSys : Sys := fun blocks n =>
  let a := 4096 + 16 * (blocks.map (fun b => b.size / 16 + 2)).sum
  if a + n + 16 ≤ SIZE_MOD ∧ footprint blocks + (n + sizeof_ptr) < SIZE_MOD then some a else none

/-- A request whose size computation cannot wrap around: any `Allocate`
request, and an `AllocateAligned` request of a positive size that stays below
`2 ^ 64` when the largest possible padding is added. -/
def Call.Exact : Call → Prop
  | .Allocate _ => True
  | .AllocateAligned b => 0 < b ∧ b + align ≤ SIZE_MOD

/-- Consistency of cursor and remaining capacity: there is no active block
(null cursor, nothing remaining), or the cursor points into an owned block of
`kBlockSize` bytes and exactly the bytes from the cursor to the end of that
block remain. -/
def CursorOK (s : Arena) : Prop :=
  (s.alloc_ptr_ = nullptr ∧ s.alloc_bytes_remaining_ = 0) ∨
  ∃ i b, s.alloc_ptr_.blk = some i ∧ s.blocks_[i]? = some b ∧ b.size = kBlockSize ∧
    s.alloc_ptr_.off + s.alloc_bytes_remaining_ = kBlockSize

/-- Soundness of the regions `hist` handed out so far with respect to the
arena state: the cursor is consistent, every region lies inside an owned block,
every region of the active block ends at or before the cursor, and no two
regions share a byte. -/
structure Sound (hist : List Region) (s : Arena) : Prop where
  cur : CursorOK s
  inb : ∀ r ∈ hist, ∃ i, r.InBlock s.blocks_ i
  below : ∀ r ∈ hist, r.ptr.blk = s.alloc_ptr_.blk → r.ptr.off + r.len ≤ s.alloc_ptr_.off
  disj : hist.Pairwise (fun a b => ¬ a.Overlaps b)

/-- The loop `for (size_t i = 0; i < blocks_.size(); i++) delete[] blocks_[i];`
of the destructor, from index `i` on: the visited indices with the block
released at each, in the order of the `delete[]` calls.  The first argument
bounds the number of iterations still to run; the loop ends earlier when its
test `i < blocks_.size()` fails. -/
def deleteLoop (blocks : List Block) : Nat → Nat → List (Nat × Block)
  | 0, _ => []
  | fuel + 1, i =>
    if h : i < blocks.length then (i, blocks[i]) :: deleteLoop blocks fuel (i + 1) else []

/-- The destructor `Arena::~Arena()`: the trace of its `delete[]` calls.  The
loop starts at index 0 and is given `blocks_.size()` iterations, which is the
number it needs to reach the failing test. -/
def Arena.destructor (s : Arena) : List (Nat × Block) :=
  deleteLoop s.blocks_ s.blocks_.length 0

/-- The call reaches `AllocateFallback`, and with it `AllocateNewBlock`: the
test of the fast path (`bytes <= alloc_bytes_remaining_` in `Allocate`,
`needed <= alloc_bytes_remaining_` in `AllocateAligned`) fails. -/
def Call.acquires (s : Arena) : Call → Bool
  | .Allocate b => decide (¬ b ≤ s.alloc_bytes_remaining_)
  | .AllocateAligned b => decide (¬ addSz b (slopOf s) ≤ s.alloc_bytes_remaining_)

/-- Number of block acquisitions (calls of `AllocateNewBlock`) in a run. -/
def acquisitions (sys : Sys) : Arena → List Call → Nat
  | _, [] => 0
  | s, c :: cs =>
    match c.exec sys s with
    | .error _ => 0
    | .ok (_, s1) => (if c.acquires s then 1 else 0) + acquisitions sys s1 cs

/-- The allocator never hands out the address of a block that is still
live. -/
def SysFresh (sys : Sys) : Prop :=
  ∀ blocks n a, sys blocks n = some a → ∀ b ∈ blocks, b.base ≠ a

/-- A concrete system allocator that places every new block above the end of
all live blocks, at a 16-byte boundary. -/
def topSys : Sys := fun blocks n =>
  let a := 16 * ((blocks.map (fun b => b.base + b.size)).sum + 256)
  if a + n + 16 ≤ SIZE_MOD then some a else none

/-! ## Arithmetic of `size_t` -/

theorem subSz_of_le {a b : Nat} (ha : a < SIZE_MOD) (hb : b ≤ a) : subSz a b = a - b := by
  unfold subSz SIZE_MOD at *
  have : b % 2 ^ 64 = b := Nat.mod_eq_of_lt (by omega)
  rw [this]
  omega

theorem addSz_of_lt {a b : Nat} (h : a + b < SIZE_MOD) : addSz a b = a + b := by
  unfold addSz
  exact Nat.mod_eq_of_lt h

theorem addSz_lt (a b : Nat) : addSz a b < SIZE_MOD := by
  unfold addSz
  exact Nat.mod_lt _ (by unfold SIZE_MOD; norm_num)

theorem subSz_lt (a b : Nat) : subSz a b < SIZE_MOD := by
  unfold subSz
  exact Nat.mod_lt _ (by unfold SIZE_MOD; norm_num)

/-! ## The code paths of the allocation methods -/

theorem AllocateNewBlock_eq (sys : Sys) (s : Arena) (n : Nat) :
    AllocateNewBlock sys s n =
      match sys s.blocks_ n with
      | none => .error Err.bad_alloc
      | some a => .ok (⟨some s.blocks_.length, 0⟩,
          { alloc_ptr_ := s.alloc_ptr_
            alloc_bytes_remaining_ := s.alloc_bytes_remaining_
            blocks_ := s.blocks_ ++ [⟨a, n⟩]
            memory_usage_ := addSz s.memory_usage_ (addSz n sizeof_ptr) }) := by
  unfold AllocateNewBlock
  cases sys s.blocks_ n <;> rfl

theorem AllocateFallback_large (sys : Sys) (s : Arena) (bytes : Nat) (h : 1024 < bytes) :
    AllocateFallback sys s bytes = AllocateNewBlock sys s bytes := by
  unfold AllocateFallback kBlockSize
  simp [h]

theorem AllocateFallback_small (sys : Sys) (s : Arena) (bytes : Nat) (h : bytes ≤ 1024) :
    AllocateFallback sys s bytes =
      match sys s.blocks_ kBlockSize with
      | none => .error Err.bad_alloc
      | some a => .ok (⟨some s.blocks_.length, 0⟩,
          { alloc_ptr_ := ⟨some s.blocks_.length, bytes⟩
            alloc_bytes_remaining_ := kBlockSize - bytes
            blocks_ := s.blocks_ ++ [⟨a, kBlockSize⟩]
            memory_usage_ := addSz s.memory_usage_ (addSz kBlockSize sizeof_ptr) }) := by
  have hk : ¬ bytes > kBlockSize / 4 := by unfold kBlockSize; omega
  have hs : subSz kBlockSize bytes = kBlockSize - bytes :=
    subSz_of_le (by unfold kBlockSize SIZE_MOD; norm_num) (by unfold kBlockSize; omega)
  unfold AllocateFallback
  rw [if_neg hk, AllocateNewBlock_eq]
  cases sys s.blocks_ kBlockSize with
  | none => rfl
  | some a => simp [Ptr.add, hs]

theorem Allocate_fast (sys : Sys) (s : Arena) (bytes : Nat)
    (hpos : 0 < bytes) (hle : bytes ≤ s.alloc_bytes_remaining_) :
    Allocate sys s bytes = .ok (s.alloc_ptr_,
      { alloc_ptr_ := ⟨s.alloc_ptr_.blk, s.alloc_ptr_.off + bytes⟩
        alloc_bytes_remaining_ := subSz s.alloc_bytes_remaining_ bytes
        blocks_ := s.blocks_
        memory_usage_ := s.memory_usage_ }) := by
  unfold Allocate
  rw [if_pos hpos, if_pos hle]
  rfl

theorem Allocate_slow (sys : Sys) (s : Arena) (bytes : Nat)
    (hgt : s.alloc_bytes_remaining_ < bytes) :
    Allocate sys s bytes = AllocateFallback sys s bytes := by
  unfold Allocate
  rw [if_pos (by omega), if_neg (by omega)]

theorem Allocate_zero (sys : Sys) (s : Arena) : Allocate sys s 0 = .error Err.assertion := by
  unfold Allocate
  simp

theorem AllocateFallback_ok {sys : Sys} {s s1 : Arena} {bytes : Nat} {p : Ptr}
    (h : AllocateFallback sys s bytes = .ok (p, s1)) :
    p = ⟨some s.blocks_.length, 0⟩ ∧
    ((1024 < bytes ∧ ∃ a, sys s.blocks_ bytes = some a ∧
        s1 = { alloc_ptr_ := s.alloc_ptr_
               alloc_bytes_remaining_ := s.alloc_bytes_remaining_
               blocks_ := s.blocks_ ++ [⟨a, bytes⟩]
               memory_usage_ := addSz s.memory_usage_ (addSz bytes sizeof_ptr) }) ∨
     (bytes ≤ 1024 ∧ ∃ a, sys s.blocks_ kBlockSize = some a ∧
        s1 = { alloc_ptr_ := ⟨some s.blocks_.length, bytes⟩
               alloc_bytes_remaining_ := kBlockSize - bytes
               blocks_ := s.blocks_ ++ [⟨a, kBlockSize⟩]
               memory_usage_ := addSz s.memory_usage_ (addSz kBlockSize sizeof_ptr) })) := by
  by_cases hb : 1024 < bytes
  · rw [AllocateFallback_large sys s bytes hb, AllocateNewBlock_eq] at h
    cases hs : sys s.blocks_ bytes with
    | none => rw [hs] at h; cases h
    | some a =>
      rw [hs] at h
      simp only [Except.ok.injEq, Prod.mk.injEq] at h
      exact ⟨h.1.symm, Or.inl ⟨hb, a, rfl, h.2.symm⟩⟩
  · have hb2 : bytes ≤ 1024 := by omega
    rw [AllocateFallback_small sys s bytes hb2] at h
    cases hs : sys s.blocks_ kBlockSize with
    | none => rw [hs] at h; cases h
    | some a =>
      rw [hs] at h
      simp only [Except.ok.injEq, Prod.mk.injEq] at h
      exact ⟨h.1.symm, Or.inr ⟨hb2, a, rfl, h.2.symm⟩⟩

theorem AllocateFallback_error {sys : Sys} {s : Arena} {bytes : Nat} {e : Err}
    (h : AllocateFallback sys s bytes = .error e) : e = Err.bad_alloc := by
  by_cases hb : 1024 < bytes
  · rw [AllocateFallback_large sys s bytes hb, AllocateNewBlock_eq] at h
    cases hs : sys s.blocks_ bytes with
    | none => rw [hs] at h; simp only [Except.error.injEq] at h; exact h.symm
    | some a => rw [hs] at h; cases h
  · rw [AllocateFallback_small sys s bytes (by omega)] at h
    cases hs : sys s.blocks_ kBlockSize with
    | none => rw [hs] at h; simp only [Except.error.injEq] at h; exact h.symm
    | some a => rw [hs] at h; cases h

theorem Allocate_ok {sys : Sys} {s s1 : Arena} {bytes : Nat} {p : Ptr}
    (h : Allocate sys s bytes = .ok (p, s1)) :
    0 < bytes ∧
    ((bytes ≤ s.alloc_bytes_remaining_ ∧ p = s.alloc_ptr_ ∧
        s1 = { alloc_ptr_ := ⟨s.alloc_ptr_.blk, s.alloc_ptr_.off + bytes⟩
               alloc_bytes_remaining_ := subSz s.alloc_bytes_remaining_ bytes
               blocks_ := s.blocks_
               memory_usage_ := s.memory_usage_ }) ∨
     (s.alloc_bytes_remaining_ < bytes ∧ AllocateFallback sys s bytes = .ok (p, s1))) := by
  by_cases h0 : 0 < bytes
  · refine ⟨h0, ?_⟩
    by_cases hle : bytes ≤ s.alloc_bytes_remaining_
    · rw [Allocate_fast sys s bytes h0 hle] at h
      simp only [Except.ok.injEq, Prod.mk.injEq] at h
      exact Or.inl ⟨hle, h.1.symm, h.2.symm⟩
    · rw [Allocate_slow sys s bytes (by omega)] at h
      exact Or.inr ⟨by omega, h⟩
  · have : bytes = 0 := by omega
    subst this
    rw [Allocate_zero] at h
    cases h

theorem Allocate_error {sys : Sys} {s : Arena} {bytes : Nat} {e : Err}
    (hpos : 0 < bytes) (h : Allocate sys s bytes = .error e) : e = Err.bad_alloc := by
  by_cases hle : bytes ≤ s.alloc_bytes_remaining_
  · rw [Allocate_fast sys s bytes hpos hle] at h
    cases h
  · rw [Allocate_slow sys s bytes (by omega)] at h
    exact AllocateFallback_error h

theorem AllocateAligned_ok {sys : Sys} {s s1 : Arena} {bytes : Nat} {p : Ptr}
    (h : AllocateAligned sys s bytes = .ok (p, s1)) :
    (addSz bytes (slopOf s) ≤ s.alloc_bytes_remaining_ ∧ p = s.alloc_ptr_.add (slopOf s) ∧
        s1 = { alloc_ptr_ := ⟨s.alloc_ptr_.blk, s.alloc_ptr_.off + addSz bytes (slopOf s)⟩
               alloc_bytes_remaining_ := subSz s.alloc_bytes_remaining_ (addSz bytes (slopOf s))
               blocks_ := s.blocks_
               memory_usage_ := s.memory_usage_ }) ∨
     (s.alloc_bytes_remaining_ < addSz bytes (slopOf s) ∧
        AllocateFallback sys s bytes = .ok (p, s1)) := by
  unfold AllocateAligned at h
  simp only at h
  by_cases hle : addSz bytes (slopOf s) ≤ s.alloc_bytes_remaining_
  · rw [if_pos hle] at h
    simp only at h
    split at h
    · simp only [Except.ok.injEq, Prod.mk.injEq] at h
      exact Or.inl ⟨hle, h.1.symm, h.2.symm⟩
    · cases h
  · rw [if_neg hle] at h
    right
    refine ⟨by omega, ?_⟩
    cases hf : AllocateFallback sys s bytes with
    | error e => rw [hf] at h; cases h
    | ok r =>
      rw [hf] at h
      obtain ⟨q, s2⟩ := r
      simp only at h
      split at h
      · exact congrArg _ (by simpa using h)
      · cases h

/-! ## Alignment -/

theorem align_eq : align = 8 := by decide

theorem and_align_mask (x : Nat) : x &&& (align - 1) = x % 8 := by
  have h : align - 1 = 2 ^ 3 - 1 := by decide
  rw [h, Nat.and_pow_two_sub_one_eq_mod]

theorem slopOf_eq (s : Arena) :
    slopOf s = (8 - uintptr s.blocks_ s.alloc_ptr_ % 8) % 8 := by
  unfold slopOf
  simp only [and_align_mask]
  rw [align_eq]
  split <;> omega

theorem slopOf_lt (s : Arena) : slopOf s < 8 := by
  rw [slopOf_eq]
  omega

theorem uintptr_add_slop (s : Arena) :
    uintptr s.blocks_ (s.alloc_ptr_.add (slopOf s)) % 8 = 0 := by
  rw [slopOf_eq]
  unfold uintptr Ptr.add SIZE_MOD
  simp only
  omega

theorem blockBase_append_new (blocks : List Block) (b : Block) :
    blockBase (blocks ++ [b]) (some blocks.length) = b.base := by
  simp [blockBase]

theorem AllocateAligned_inblock (sys : Sys) (s : Arena) (bytes : Nat)
    (h : addSz bytes (slopOf s) ≤ s.alloc_bytes_remaining_) :
    AllocateAligned sys s bytes = .ok (s.alloc_ptr_.add (slopOf s),
      { alloc_ptr_ := ⟨s.alloc_ptr_.blk, s.alloc_ptr_.off + addSz bytes (slopOf s)⟩
        alloc_bytes_remaining_ := subSz s.alloc_bytes_remaining_ (addSz bytes (slopOf s))
        blocks_ := s.blocks_
        memory_usage_ := s.memory_usage_ }) := by
  have ha := uintptr_add_slop s
  unfold AllocateAligned
  simp only [if_pos h, and_align_mask, ha]
  rfl

theorem AllocateAligned_fallback (sys : Sys) (s : Arena) (bytes : Nat)
    (h : s.alloc_bytes_remaining_ < addSz bytes (slopOf s)) :
    AllocateAligned sys s bytes =
      match AllocateFallback sys s bytes with
      | .error e => .error e
      | .ok (p, s1) =>
        if uintptr s1.blocks_ p % 8 = 0 then .ok (p, s1) else .error Err.assertion := by
  have hn : ¬ addSz bytes (slopOf s) ≤ s.alloc_bytes_remaining_ := by omega
  unfold AllocateAligned
  simp only [if_neg hn, and_align_mask]

theorem AllocateFallback_aligned {sys : Sys} (hsys : SysAligned sys) {s s1 : Arena}
    {bytes : Nat} {p : Ptr} (h : AllocateFallback sys s bytes = .ok (p, s1)) :
    uintptr s1.blocks_ p % 8 = 0 := by
  obtain ⟨hp, hc⟩ := AllocateFallback_ok h
  have key : ∀ a n, 8 ∣ a →
      uintptr (s.blocks_ ++ [⟨a, n⟩]) ⟨some s.blocks_.length, 0⟩ % 8 = 0 := by
    intro a n ha
    unfold uintptr SIZE_MOD
    simp only [blockBase_append_new]
    omega
  rcases hc with ⟨_, a, ha, hs⟩ | ⟨_, a, ha, hs⟩
  · have h8 := hsys _ _ _ ha
    rw [align_eq] at h8
    rw [hp, hs]
    exact key a bytes h8
  · have h8 := hsys _ _ _ ha
    rw [align_eq] at h8
    rw [hp, hs]
    exact key a kBlockSize h8

theorem AllocateAligned_aligned {sys : Sys} {s s1 : Arena} {bytes : Nat} {p : Ptr}
    (h : AllocateAligned sys s bytes = .ok (p, s1)) :
    uintptr s1.blocks_ p % 8 = 0 := by
  unfold AllocateAligned at h
  simp only [and_align_mask] at h
  split at h
  · cases h
  · rename_i q s2 _
    split at h
    · rename_i hq
      simp only [Except.ok.injEq, Prod.mk.injEq] at h
      rw [← h.1, ← h.2]
      exact hq
    · cases h

theorem AllocateAligned_no_assertion {sys : Sys} (hsys : SysAligned sys) (s : Arena)
    (bytes : Nat) : AllocateAligned sys s bytes ≠ .error Err.assertion := by
  by_cases hle : addSz bytes (slopOf s) ≤ s.alloc_bytes_remaining_
  · rw [AllocateAligned_inblock sys s bytes hle]
    intro h
    cases h
  · rw [AllocateAligned_fallback sys s bytes (by omega)]
    cases hf : AllocateFallback sys s bytes with
    | error e =>
      have := AllocateFallback_error hf
      subst this
      intro h
      cases h
    | ok r =>
      obtain ⟨p, s1⟩ := r
      simp only [AllocateFallback_aligned hsys hf, if_true]
      intro h
      cases h

/-! ## The concrete allocator -/

theorem bumpSys_aligned : SysAligned bumpSys := by
  intro blocks n a h
  unfold bumpSys at h
  simp only at h
  split at h
  · simp only [Option.some.injEq] at h
    rw [align_eq, ← h]
    omega
  · cases h

theorem bumpSys_bounded : SysBounded bumpSys := by
  intro blocks n a h
  unfold bumpSys at h
  simp only at h
  split at h
  · rename_i hc
    exact hc.2
  · cases h

/-! ## Handles of the regions returned after a point of a run -/

theorem exec_blk_ge {sys : Sys} {n : Nat} {s s1 : Arena} {c : Call} {p : Ptr}
    (hlen : n ≤ s.blocks_.length) (hcur : ∃ i, s.alloc_ptr_.blk = some i ∧ n ≤ i)
    (h : c.exec sys s = .ok (p, s1)) :
    (∃ j, p.blk = some j ∧ n ≤ j) ∧ n ≤ s1.blocks_.length ∧
      ∃ i, s1.alloc_ptr_.blk = some i ∧ n ≤ i := by
  have fb : ∀ bytes, AllocateFallback sys s bytes = .ok (p, s1) →
      (∃ j, p.blk = some j ∧ n ≤ j) ∧ n ≤ s1.blocks_.length ∧
        ∃ i, s1.alloc_ptr_.blk = some i ∧ n ≤ i := by
    intro bytes hf
    obtain ⟨hp, hc⟩ := AllocateFallback_ok hf
    rcases hc with ⟨_, a, _, hs⟩ | ⟨_, a, _, hs⟩
    · subst hs; subst hp
      exact ⟨⟨_, rfl, hlen⟩, by simp only [List.length_append]; omega, hcur⟩
    · subst hs; subst hp
      exact ⟨⟨_, rfl, hlen⟩, by simp only [List.length_append]; omega, ⟨_, rfl, hlen⟩⟩
  cases c with
  | Allocate bytes =>
    obtain ⟨_, hc⟩ := Allocate_ok h
    rcases hc with ⟨_, hp, hs⟩ | ⟨_, hf⟩
    · subst hs; subst hp
      exact ⟨hcur, hlen, hcur⟩
    · exact fb bytes hf
  | AllocateAligned bytes =>
    rcases AllocateAligned_ok h with ⟨_, hp, hs⟩ | ⟨_, hf⟩
    · subst hs; subst hp
      exact ⟨hcur, hlen, hcur⟩
    · exact fb bytes hf

theorem run_blk_ge {sys : Sys} {n : Nat} (calls : List Call) :
    ∀ {s s2 : Arena} {out : List Region}, n ≤ s.blocks_.length →
      (∃ i, s.alloc_ptr_.blk = some i ∧ n ≤ i) → run sys s calls = .ok (out, s2) →
      ∀ r ∈ out, ∃ j, r.ptr.blk = some j ∧ n ≤ j := by
  induction calls with
  | nil =>
    intro s s2 out _ _ h r hr
    simp only [run, Except.ok.injEq, Prod.mk.injEq] at h
    rw [← h.1] at hr
    cases hr
  | cons c cs ih =>
    intro s s2 out hlen hcur h r hr
    simp only [run] at h
    cases hc : c.exec sys s with
    | error e => rw [hc] at h; cases h
    | ok q =>
      obtain ⟨p, s1⟩ := q
      rw [hc] at h
      simp only at h
      obtain ⟨hp, hlen1, hcur1⟩ := exec_blk_ge hlen hcur hc
      cases hr2 : run sys s1 cs with
      | error e => rw [hr2] at h; cases h
      | ok q2 =>
        obtain ⟨out1, s3⟩ := q2
        rw [hr2] at h
        simp only [Except.ok.injEq, Prod.mk.injEq] at h
        rw [← h.1] at hr
        rcases List.mem_cons.1 hr with rfl | hmem
        · exact hp
        · exact ih hlen1 hcur1 hr2 r hmem

/-! ## Contract of `AllocateAligned`: alignment -/

/-- C2: when every block of the system allocator starts at an address
divisible by `align = max(8, sizeof(void*))`, then in every arena state (so in
every state reachable from a fresh arena) and for every `bytes`,
`AllocateAligned(bytes)` never fails its final assertion, and whenever it
returns, the returned address is divisible by `align`, on the in-block path
and on the fallback path alike. -/
theorem AllocateAligned_result_divisible_by_align (sys : Sys) (hsys : SysAligned sys)
    (s : Arena) (bytes : Nat) :
    AllocateAligned sys s bytes ≠ .error Err.assertion ∧
    ∀ p s1, AllocateAligned sys s bytes = .ok (p, s1) → align ∣ uintptr s1.blocks_ p := by
  refine ⟨AllocateAligned_no_assertion hsys s bytes, ?_⟩
  intro p s1 h
  rw [align_eq]
  exact Nat.dvd_of_mod_eq_zero (AllocateAligned_aligned h)

/-- Instance of C2: an aligned request of 5 bytes at a cursor one byte into the
first block of the concrete allocator. -/
theorem AllocateAligned_result_divisible_by_align_witness :
    SysAligned bumpSys ∧
    AllocateAligned bumpSys ⟨⟨some 0, 1⟩, 4095, [⟨4096, 4096⟩], 4104⟩ 5 =
      .ok (⟨some 0, 8⟩, ⟨⟨some 0, 13⟩, 4083, [⟨4096, 4096⟩], 4104⟩) ∧
    align ∣ uintptr [⟨4096, 4096⟩] ⟨some 0, 8⟩ :=
  ⟨bumpSys_aligned, by rfl,
    (AllocateAligned_result_divisible_by_align bumpSys bumpSys_aligned
      ⟨⟨some 0, 1⟩, 4095, [⟨4096, 4096⟩], 4104⟩ 5).2 _ _ (by rfl)⟩

/-! ## The three paths of `Allocate` -/

/-- C6: large-request fallback.  When `bytes` exceeds both the remaining
capacity and `kBlockSize / 4 = 1024`, `Allocate(bytes)` asks the system for one
block of exactly `bytes` bytes; if the system delivers it, the call appends
that single block, returns offset 0 of it and leaves the cursor and the
remaining capacity unchanged (otherwise the call ends in `bad_alloc`).  On a
fresh arena `Allocate(2049)` creates a single block of 2049 bytes and the
remaining capacity stays 0. -/
theorem Allocate_large_request_dedicated_block (sys : Sys) (s : Arena) (bytes : Nat)
    (hrem : s.alloc_bytes_remaining_ < bytes) (hbig : kBlockSize / 4 < bytes) :
    (Allocate sys s bytes =
      match sys s.blocks_ bytes with
      | none => .error Err.bad_alloc
      | some a => .ok (⟨some s.blocks_.length, 0⟩,
          { alloc_ptr_ := s.alloc_ptr_
            alloc_bytes_remaining_ := s.alloc_bytes_remaining_
            blocks_ := s.blocks_ ++ [⟨a, bytes⟩]
            memory_usage_ := addSz s.memory_usage_ (addSz bytes sizeof_ptr) })) ∧
    (Allocate sys Arena.new 2049 =
      match sys [] 2049 with
      | none => .error Err.bad_alloc
      | some a => .ok (⟨some 0, 0⟩,
          { alloc_ptr_ := nullptr
            alloc_bytes_remaining_ := 0
            blocks_ := [⟨a, 2049⟩]
            memory_usage_ := 2057 })) := by
  have hb : 1024 < bytes := by unfold kBlockSize at hbig; omega
  constructor
  · rw [Allocate_slow sys s bytes hrem, AllocateFallback_large sys s bytes hb,
      AllocateNewBlock_eq]
  · rw [Allocate_slow sys Arena.new 2049 (by decide),
      AllocateFallback_large sys Arena.new 2049 (by decide), AllocateNewBlock_eq]
    rfl

/-- Instance of C6: 1025 bytes requested with 10 bytes remaining. -/
theorem Allocate_large_request_dedicated_block_witness :
    (10 < 1025 ∧ kBlockSize / 4 < 1025) ∧
    Allocate bumpSys ⟨⟨some 0, 4086⟩, 10, [⟨4096, 4096⟩], 4104⟩ 1025 =
      .ok (⟨some 1, 0⟩, ⟨⟨some 0, 4086⟩, 10, [⟨4096, 4096⟩, ⟨8224, 1025⟩], 5137⟩) :=
  ⟨by decide,
    (Allocate_large_request_dedicated_block bumpSys
      ⟨⟨some 0, 4086⟩, 10, [⟨4096, 4096⟩], 4104⟩ 1025 (by decide) (by decide)).1.trans (by rfl)⟩

/-- C7: small-request fallback.  In an arena state whose cursor is null or
points into an owned block, when `remaining < bytes <= kBlockSize / 4 = 1024`,
`Allocate(bytes)` asks the system for one block of 4096 bytes; if the system
delivers it, the call appends that single block, makes it the active block,
returns offset 0 of it, and leaves the cursor at offset `bytes` of the new
block with `remaining = 4096 - bytes` (otherwise the call ends in `bad_alloc`).
No region returned by any later call (of either operation) shares a byte with
the `remaining` bytes that were left at the old cursor. -/
theorem Allocate_small_request_fresh_block (sys : Sys) (s : Arena) (bytes : Nat)
    (hown : ∀ i, s.alloc_ptr_.blk = some i → i < s.blocks_.length)
    (hrem : s.alloc_bytes_remaining_ < bytes) (hsmall : bytes ≤ kBlockSize / 4) :
    (Allocate sys s bytes =
      match sys s.blocks_ kBlockSize with
      | none => .error Err.bad_alloc
      | some a => .ok (⟨some s.blocks_.length, 0⟩,
          { alloc_ptr_ := ⟨some s.blocks_.length, bytes⟩
            alloc_bytes_remaining_ := 4096 - bytes
            blocks_ := s.blocks_ ++ [⟨a, 4096⟩]
            memory_usage_ := addSz s.memory_usage_ (addSz 4096 sizeof_ptr) })) ∧
    (∀ p s1, Allocate sys s bytes = .ok (p, s1) →
      ∀ calls out s2, run sys s1 calls = .ok (out, s2) →
        ∀ r ∈ out, ¬ r.Overlaps ⟨s.alloc_ptr_, s.alloc_bytes_remaining_⟩) := by
  have hb : bytes ≤ 1024 := by unfold kBlockSize at hsmall; omega
  have heq := AllocateFallback_small sys s bytes hb
  rw [← Allocate_slow sys s bytes hrem] at heq
  refine ⟨heq, ?_⟩
  intro p s1 h calls out s2 hrun r hr hov
  rw [heq] at h
  cases hs : sys s.blocks_ kBlockSize with
  | none => rw [hs] at h; cases h
  | some a =>
    rw [hs] at h
    simp only [Except.ok.injEq, Prod.mk.injEq] at h
    obtain ⟨_, hs1⟩ := h
    have hlen : s.blocks_.length + 1 ≤ s1.blocks_.length := by
      rw [← hs1]; simp only [List.length_append, List.length_singleton]; omega
    have hlen0 : s.blocks_.length ≤ s1.blocks_.length := by omega
    have hcur : ∃ i, s1.alloc_ptr_.blk = some i ∧ s.blocks_.length ≤ i := by
      rw [← hs1]; exact ⟨_, rfl, le_refl _⟩
    obtain ⟨j, hj, hge⟩ := run_blk_ge calls hlen0 hcur hrun r hr
    have hblk : r.ptr.blk = s.alloc_ptr_.blk := hov.1
    rw [hj] at hblk
    have := hown j hblk.symm
    omega

/-- Instance of C7: 20 bytes requested with 10 bytes remaining. -/
theorem Allocate_small_request_fresh_block_witness :
    ((∀ i, (⟨some 0, 4086⟩ : Ptr).blk = some i → i < [(⟨4096, 4096⟩ : Block)].length) ∧
      10 < 20 ∧ 20 ≤ kBlockSize / 4) ∧
    Allocate bumpSys ⟨⟨some 0, 4086⟩, 10, [⟨4096, 4096⟩], 4104⟩ 20 =
      .ok (⟨some 1, 0⟩, ⟨⟨some 1, 20⟩, 4076, [⟨4096, 4096⟩, ⟨8224, 4096⟩], 8208⟩) :=
  ⟨⟨by intro i h; cases h; decide, by decide, by decide⟩,
    (Allocate_small_request_fresh_block bumpSys
      ⟨⟨some 0, 4086⟩, 10, [⟨4096, 4096⟩], 4104⟩ 20
      (by intro i h; cases h; decide) (by decide) (by decide)).1.trans (by rfl)⟩

/-- C8: fast path.  When `0 < bytes <= remaining` (`remaining` a `size_t`
value), `Allocate(bytes)` returns the old cursor, advances the cursor by
exactly `bytes`, decreases `remaining` by exactly `bytes`, and leaves the block
list and `MemoryUsage()` unchanged. -/
theorem Allocate_fast_path (sys : Sys) (s : Arena) (bytes : Nat)
    (hsz : s.alloc_bytes_remaining_ < SIZE_MOD)
    (hpos : 0 < bytes) (hle : bytes ≤ s.alloc_bytes_remaining_) :
    ∃ s1, Allocate sys s bytes = .ok (s.alloc_ptr_, s1) ∧
      s1.alloc_ptr_ = s.alloc_ptr_.add bytes ∧
      s1.alloc_bytes_remaining_ + bytes = s.alloc_bytes_remaining_ ∧
      s1.blocks_ = s.blocks_ ∧
      s1.MemoryUsage = s.MemoryUsage := by
  refine ⟨_, Allocate_fast sys s bytes hpos hle, rfl, ?_, rfl, rfl⟩
  simp only [subSz_of_le hsz hle]
  omega

/-- Instance of C8: 100 bytes requested with 4000 bytes remaining. -/
theorem Allocate_fast_path_witness :
    (4000 < SIZE_MOD ∧ 0 < 100 ∧ 100 ≤ 4000) ∧
    ∃ s1, Allocate bumpSys ⟨⟨some 0, 96⟩, 4000, [⟨4096, 4096⟩], 4104⟩ 100 =
        .ok (⟨some 0, 96⟩, s1) ∧
      s1.alloc_ptr_ = (⟨some 0, 96⟩ : Ptr).add 100 ∧
      s1.alloc_bytes_remaining_ + 100 = 4000 ∧
      s1.blocks_ = [⟨4096, 4096⟩] ∧
      s1.MemoryUsage = 4104 :=
  ⟨by decide,
    Allocate_fast_path bumpSys ⟨⟨some 0, 96⟩, 4000, [⟨4096, 4096⟩], 4104⟩ 100
      (by decide) (by decide) (by decide)⟩

/-- C10: in every arena state `Allocate(0)` violates the assertion
`bytes > 0`: the call ends in the assertion failure, returns no region and
produces no new state; and `Allocate(bytes)` gets past the assertion exactly
when `bytes > 0` (it then returns, or ends in `bad_alloc` when the system
allocator fails). -/
theorem Allocate_zero_fails_fast (sys : Sys) (s : Arena) :
    Allocate sys s 0 = .error Err.assertion ∧
    ∀ bytes, Allocate sys s bytes ≠ .error Err.assertion ↔ 0 < bytes := by
  refine ⟨Allocate_zero sys s, ?_⟩
  intro bytes
  constructor
  · intro h
    by_contra h0
    have : bytes = 0 := by omega
    subst this
    exact h (Allocate_zero sys s)
  · intro hpos h
    have := Allocate_error hpos h
    cases this

/-! ## Two consecutive requests on a fresh arena -/

/-- C9 as stated fails: on a fresh arena `Allocate(1025)` followed by
`Allocate(1)` (both positive, `1025 + 1 <= 4096`) puts the first region in a
dedicated block of 1025 bytes and the second at offset 0 of a second block,
not at bytes `[1025, 1026)` of the first block. -/
theorem Allocate_two_requests_not_contiguous :
    (0 < 1025 ∧ 0 < 1 ∧ 1025 + 1 ≤ 4096) ∧
    runAllocate bumpSys Arena.new [1025, 1] =
      .ok ([⟨⟨some 0, 0⟩, 1025⟩, ⟨⟨some 1, 0⟩, 1⟩],
        ⟨⟨some 1, 1⟩, 4095, [⟨4096, 1025⟩, ⟨5152, 4096⟩], 5137⟩) ∧
    (⟨⟨some 1, 0⟩, 1⟩ : Region) ≠ ⟨⟨some 0, 1025⟩, 1⟩ := by
  refine ⟨by decide, by rfl, by decide⟩

/-- C9, amended: on a fresh arena, for all `N` with `0 < N <= kBlockSize / 4`
and all `M > 0` with `N + M <= 4096`, `Allocate(N)` followed by `Allocate(M)`
acquires one standard block (if the system delivers it; otherwise the run ends
in `bad_alloc`) and returns two contiguous regions of that block: bytes
`[0, N)` and bytes `[N, N + M)`, which share no byte. -/
theorem Allocate_two_small_requests_contiguous (sys : Sys) (N M : Nat)
    (hN : 0 < N) (hNs : N ≤ kBlockSize / 4) (hM : 0 < M) (hfit : N + M ≤ 4096) :
    (runAllocate sys Arena.new [N, M] =
      match sys [] kBlockSize with
      | none => .error Err.bad_alloc
      | some a => .ok ([⟨⟨some 0, 0⟩, N⟩, ⟨⟨some 0, N⟩, M⟩],
          { alloc_ptr_ := ⟨some 0, N + M⟩
            alloc_bytes_remaining_ := 4096 - (N + M)
            blocks_ := [⟨a, 4096⟩]
            memory_usage_ := 4104 })) ∧
    ¬ (⟨⟨some 0, 0⟩, N⟩ : Region).Overlaps ⟨⟨some 0, N⟩, M⟩ := by
  have hb : N ≤ 1024 := by unfold kBlockSize at hNs; omega
  constructor
  · have h1 : Allocate sys Arena.new N = AllocateFallback sys Arena.new N :=
      Allocate_slow sys Arena.new N hN
    rw [AllocateFallback_small sys Arena.new N hb] at h1
    simp only [runAllocate, List.map, run, Call.exec, Call.bytes, h1]
    cases hs : sys Arena.new.blocks_ kBlockSize with
    | none =>
      have hs2 : sys [] kBlockSize = none := hs
      simp only [hs2]
    | some a =>
      have hs2 : sys [] kBlockSize = some a := hs
      simp only [hs2]
      rw [Allocate_fast sys _ M hM (by simp only [kBlockSize]; omega)]
      simp only [Arena.new, List.length_nil, List.nil_append, kBlockSize]
      have hsub : subSz (4096 - N) M = 4096 - (N + M) := by
        rw [subSz_of_le (by unfold SIZE_MOD; omega) (by omega)]
        omega
      rw [hsub]
      rfl
  · intro h
    have := h.2
    simp only at this
    omega

/-- Instance of the amended C9 with `N = 100`, `M = 200`. -/
theorem Allocate_two_small_requests_contiguous_witness :
    (0 < 100 ∧ 100 ≤ kBlockSize / 4 ∧ 0 < 200 ∧ 100 + 200 ≤ 4096) ∧
    runAllocate bumpSys Arena.new [100, 200] =
      .ok ([⟨⟨some 0, 0⟩, 100⟩, ⟨⟨some 0, 100⟩, 200⟩],
        ⟨⟨some 0, 300⟩, 3796, [⟨4096, 4096⟩], 4104⟩) :=
  ⟨by decide,
    (Allocate_two_small_requests_contiguous bumpSys 100 200
      (by decide) (by decide) (by decide) (by decide)).1.trans (by rfl)⟩

/-! ## Cursor consistency -/

theorem CursorOK_new : CursorOK Arena.new := Or.inl ⟨rfl, rfl⟩

theorem CursorOK.rem_le {s : Arena} (h : CursorOK s) :
    s.alloc_bytes_remaining_ ≤ kBlockSize := by
  rcases h with ⟨_, h0⟩ | ⟨i, b, _, _, _, h⟩
  · omega
  · omega

theorem getElem?_append_of_some {blocks : List Block} {i : Nat} {b : Block} (l : List Block)
    (h : blocks[i]? = some b) : (blocks ++ l)[i]? = some b := by
  obtain ⟨hi, _⟩ := List.getElem?_eq_some.1 h
  rw [List.getElem?_append_left hi]
  exact h

theorem lt_length_of_getElem? {blocks : List Block} {i : Nat} {b : Block}
    (h : blocks[i]? = some b) : i < blocks.length :=
  (List.getElem?_eq_some.1 h).1

theorem AllocateFallback_cursorOK {sys : Sys} {s s1 : Arena} {bytes : Nat} {p : Ptr}
    (hc : CursorOK s) (h : AllocateFallback sys s bytes = .ok (p, s1)) : CursorOK s1 := by
  obtain ⟨_, hcase⟩ := AllocateFallback_ok h
  rcases hcase with ⟨_, a, _, hs⟩ | ⟨hb, a, _, hs⟩
  · subst hs
    rcases hc with hnull | ⟨i, b, h1, h2, h3, h4⟩
    · exact Or.inl hnull
    · exact Or.inr ⟨i, b, h1, getElem?_append_of_some _ h2, h3, h4⟩
  · subst hs
    refine Or.inr ⟨s.blocks_.length, ⟨a, kBlockSize⟩, rfl, List.getElem?_concat_length _ _, rfl, ?_⟩
    simp only [kBlockSize]
    omega

theorem bump_cursorOK {s : Arena} {n : Nat} (hc : CursorOK s)
    (hn : n ≤ s.alloc_bytes_remaining_) :
    CursorOK { alloc_ptr_ := ⟨s.alloc_ptr_.blk, s.alloc_ptr_.off + n⟩
               alloc_bytes_remaining_ := subSz s.alloc_bytes_remaining_ n
               blocks_ := s.blocks_
               memory_usage_ := s.memory_usage_ } := by
  have hle := hc.rem_le
  have hsub : subSz s.alloc_bytes_remaining_ n = s.alloc_bytes_remaining_ - n :=
    subSz_of_le (by unfold kBlockSize at hle; unfold SIZE_MOD; omega) hn
  rcases hc with ⟨hp, h0⟩ | ⟨i, b, h1, h2, h3, h4⟩
  · left
    have hn0 : n = 0 := by omega
    subst hn0
    rw [hsub, hp]
    exact ⟨rfl, by simp only; omega⟩
  · right
    refine ⟨i, b, h1, h2, h3, ?_⟩
    simp only [hsub]
    omega

theorem exec_cursorOK {sys : Sys} {s s1 : Arena} {c : Call} {p : Ptr}
    (hc : CursorOK s) (h : c.exec sys s = .ok (p, s1)) : CursorOK s1 := by
  cases c with
  | Allocate bytes =>
    obtain ⟨_, hcase⟩ := Allocate_ok h
    rcases hcase with ⟨hle, _, hs⟩ | ⟨_, hf⟩
    · rw [hs]
      exact bump_cursorOK hc hle
    · exact AllocateFallback_cursorOK hc hf
  | AllocateAligned bytes =>
    rcases AllocateAligned_ok h with ⟨hle, _, hs⟩ | ⟨_, hf⟩
    · rw [hs]
      exact bump_cursorOK hc hle
    · exact AllocateFallback_cursorOK hc hf

/-! ## Soundness of the returned regions -/

theorem Sound_new : Sound [] Arena.new :=
  { cur := CursorOK_new
    inb := by intro r hr; cases hr
    below := by intro r hr; cases hr
    disj := List.Pairwise.nil }

theorem InBlock_append {blocks : List Block} {r : Region} {i : Nat} (l : List Block)
    (h : r.InBlock blocks i) : r.InBlock (blocks ++ l) i := by
  obtain ⟨h1, b, h2, h3⟩ := h
  exact ⟨h1, b, getElem?_append_of_some l h2, h3⟩

theorem InBlock_lt {blocks : List Block} {r : Region} {i : Nat}
    (h : r.InBlock blocks i) : r.ptr.blk = some i ∧ i < blocks.length := by
  obtain ⟨h1, b, h2, _⟩ := h
  exact ⟨h1, lt_length_of_getElem? h2⟩

theorem bump_sound {hist : List Region} {s : Arena} {pad bytes n : Nat}
    (hs : Sound hist s) (hn : n = pad + bytes) (hpos : 0 < bytes)
    (hle : n ≤ s.alloc_bytes_remaining_) :
    Sound (⟨⟨s.alloc_ptr_.blk, s.alloc_ptr_.off + pad⟩, bytes⟩ :: hist)
      { alloc_ptr_ := ⟨s.alloc_ptr_.blk, s.alloc_ptr_.off + n⟩
        alloc_bytes_remaining_ := subSz s.alloc_bytes_remaining_ n
        blocks_ := s.blocks_
        memory_usage_ := s.memory_usage_ } := by
  have hcur := hs.cur
  rcases hcur with ⟨_, h0⟩ | ⟨i, b, h1, h2, h3, h4⟩
  · omega
  · refine ⟨bump_cursorOK hs.cur hle, ?_, ?_, ?_⟩
    · intro r hr
      rcases List.mem_cons.1 hr with rfl | hmem
      · exact ⟨i, h1, b, h2, by simp only; omega⟩
      · exact hs.inb r hmem
    · intro r hr hblk
      rcases List.mem_cons.1 hr with rfl | hmem
      · simp only; omega
      · have := hs.below r hmem hblk
        simp only
        omega
    · refine List.pairwise_cons.2 ⟨?_, hs.disj⟩
      intro r hmem hov
      have hb := hs.below r hmem hov.1.symm
      have := hov.2
      simp only at this
      omega

theorem AllocateFallback_sound {sys : Sys} {hist : List Region} {s s1 : Arena} {bytes : Nat}
    {p : Ptr} (hs : Sound hist s) (h : AllocateFallback sys s bytes = .ok (p, s1)) :
    Sound (⟨p, bytes⟩ :: hist) s1 := by
  have hcur1 := AllocateFallback_cursorOK hs.cur h
  obtain ⟨hp, hcase⟩ := AllocateFallback_ok h
  have hold : ∀ r ∈ hist, r.ptr.blk ≠ some s.blocks_.length := by
    intro r hr heq
    obtain ⟨i, hi⟩ := hs.inb r hr
    obtain ⟨h1, h2⟩ := InBlock_lt hi
    rw [h1] at heq
    simp only [Option.some.injEq] at heq
    omega
  have hcurblk : s.alloc_ptr_.blk ≠ some s.blocks_.length := by
    intro heq
    rcases hs.cur with ⟨hnull, _⟩ | ⟨i, b, h1, h2, _, _⟩
    · rw [hnull] at heq
      cases heq
    · rw [h1] at heq
      simp only [Option.some.injEq] at heq
      have := lt_length_of_getElem? h2
      omega
  have hdisj : List.Pairwise (fun a b => ¬ a.Overlaps b) (⟨p, bytes⟩ :: hist) := by
    refine List.pairwise_cons.2 ⟨?_, hs.disj⟩
    intro r hmem hov
    have := hov.1
    rw [hp] at this
    exact hold r hmem this.symm
  rcases hcase with ⟨_, a, _, hs1⟩ | ⟨hb, a, _, hs1⟩
  · refine ⟨hcur1, ?_, ?_, hdisj⟩
    · intro r hr
      rcases List.mem_cons.1 hr with rfl | hmem
      · refine ⟨s.blocks_.length, by rw [hp], ⟨a, bytes⟩, ?_, ?_⟩
        · rw [hs1]
          exact List.getElem?_concat_length _ _
        · rw [hp]
          simp only
          omega
      · obtain ⟨i, hi⟩ := hs.inb r hmem
        rw [hs1]
        exact ⟨i, InBlock_append _ hi⟩
    · intro r hr hblk
      rw [hs1] at hblk ⊢
      simp only at hblk ⊢
      rcases List.mem_cons.1 hr with rfl | hmem
      · rw [hp] at hblk
        exact absurd hblk.symm hcurblk
      · exact hs.below r hmem hblk
  · refine ⟨hcur1, ?_, ?_, hdisj⟩
    · intro r hr
      rcases List.mem_cons.1 hr with rfl | hmem
      · refine ⟨s.blocks_.length, by rw [hp], ⟨a, kBlockSize⟩, ?_, ?_⟩
        · rw [hs1]
          exact List.getElem?_concat_length _ _
        · rw [hp]
          simp only [kBlockSize]
          omega
      · obtain ⟨i, hi⟩ := hs.inb r hmem
        rw [hs1]
        exact ⟨i, InBlock_append _ hi⟩
    · intro r hr hblk
      rw [hs1] at hblk ⊢
      simp only at hblk ⊢
      rcases List.mem_cons.1 hr with rfl | hmem
      · rw [hp]
        simp only
        omega
      · exact absurd hblk (hold r hmem)

theorem exec_sound {sys : Sys} {hist : List Region} {s s1 : Arena} {c : Call} {p : Ptr}
    (hex : c.Exact) (hs : Sound hist s) (h : c.exec sys s = .ok (p, s1)) :
    Sound (⟨p, c.bytes⟩ :: hist) s1 := by
  cases c with
  | Allocate bytes =>
    obtain ⟨hpos, hcase⟩ := Allocate_ok h
    rcases hcase with ⟨hle, hp, hs1⟩ | ⟨_, hf⟩
    · have := @bump_sound hist s 0 bytes bytes hs (by omega) hpos hle
      rw [hs1, hp]
      exact this
    · exact AllocateFallback_sound hs hf
  | AllocateAligned bytes =>
    obtain ⟨hpos, hfit⟩ := hex
    have hslop := slopOf_lt s
    have hadd : addSz bytes (slopOf s) = slopOf s + bytes := by
      rw [align_eq] at hfit
      rw [addSz_of_lt (by omega)]
      omega
    rcases AllocateAligned_ok h with ⟨hle, hp, hs1⟩ | ⟨_, hf⟩
    · have := @bump_sound hist s (slopOf s) bytes (addSz bytes (slopOf s)) hs hadd hpos hle
      rw [hs1, hp]
      exact this
    · exact AllocateFallback_sound hs hf

theorem Overlaps_symm {a b : Region} (h : a.Overlaps b) : b.Overlaps a := by
  obtain ⟨h1, h2⟩ := h
  exact ⟨h1.symm, by omega⟩

theorem run_sound {sys : Sys} (calls : List Call) :
    ∀ {hist : List Region} {s s2 : Arena} {out : List Region},
      (∀ c ∈ calls, c.Exact) → Sound hist s → run sys s calls = .ok (out, s2) →
      Sound (out.reverse ++ hist) s2 ∧ out.map Region.len = calls.map Call.bytes := by
  induction calls with
  | nil =>
    intro hist s s2 out _ hs h
    simp only [run, Except.ok.injEq, Prod.mk.injEq] at h
    rw [← h.1, ← h.2]
    exact ⟨hs, rfl⟩
  | cons c cs ih =>
    intro hist s s2 out hex hs h
    simp only [run] at h
    cases hc : c.exec sys s with
    | error e => rw [hc] at h; cases h
    | ok q =>
      obtain ⟨p, s1⟩ := q
      rw [hc] at h
      simp only at h
      cases hr : run sys s1 cs with
      | error e => rw [hr] at h; cases h
      | ok q2 =>
        obtain ⟨out1, s3⟩ := q2
        rw [hr] at h
        simp only [Except.ok.injEq, Prod.mk.injEq] at h
        have hs1 := exec_sound (hex c (List.mem_cons_self _ _)) hs hc
        obtain ⟨ih1, ih2⟩ := ih (fun c hc => hex c (List.mem_cons_of_mem _ hc)) hs1 hr
        rw [← h.1, ← h.2]
        refine ⟨?_, ?_⟩
        · simpa using ih1
        · simp only [List.map_cons, ih2]

theorem run_regions_sound {sys : Sys} {calls : List Call} {out : List Region} {s : Arena}
    (hex : ∀ c ∈ calls, c.Exact) (h : run sys Arena.new calls = .ok (out, s)) :
    out.map Region.len = calls.map Call.bytes ∧
    (∀ r ∈ out, ∃! i, r.InBlock s.blocks_ i) ∧
    out.Pairwise (fun a b => ¬ a.Overlaps b) := by
  obtain ⟨hs, hlen⟩ := run_sound calls hex Sound_new h
  rw [List.append_nil] at hs
  refine ⟨hlen, ?_, ?_⟩
  · intro r hr
    obtain ⟨i, hi⟩ := hs.inb r (List.mem_reverse.2 hr)
    refine ⟨i, hi, ?_⟩
    intro j hj
    have h1 := hi.1
    rw [hj.1] at h1
    simpa using h1
  · have := List.pairwise_reverse.1 hs.disj
    exact this.imp (fun hab hov => hab (Overlaps_symm hov))

theorem runAllocate_error {sys : Sys} (sizes : List Nat) :
    ∀ {s : Arena} {e : Err}, (∀ b ∈ sizes, 0 < b) →
      runAllocate sys s sizes = .error e → e = Err.bad_alloc := by
  induction sizes with
  | nil =>
    intro s e _ h
    simp only [runAllocate, List.map_nil, run] at h
    cases h
  | cons b bs ih =>
    intro s e hpos h
    simp only [runAllocate, List.map_cons, run, Call.exec] at h
    cases hc : Allocate sys s b with
    | error e1 =>
      rw [hc] at h
      simp only [Except.error.injEq] at h
      rw [← h]
      exact Allocate_error (hpos b (List.mem_cons_self _ _)) hc
    | ok q =>
      obtain ⟨p, s1⟩ := q
      rw [hc] at h
      simp only at h
      cases hr : run sys s1 (bs.map Call.Allocate) with
      | error e2 =>
        rw [hr] at h
        simp only [Except.error.injEq] at h
        rw [← h]
        exact ih (fun b hb => hpos b (List.mem_cons_of_mem _ hb)) hr
      | ok q2 =>
        rw [hr] at h
        cases h

/-! ## Contract of `Allocate`: regions -/

/-- C1: for every sequence of `Allocate` calls on a fresh arena in which every
request has `bytes > 0`, no call fails an assertion (the run can only end early
when the system allocator fails), and when the calls return, the i-th region
has exactly the i-th requested length, every region lies entirely inside
exactly one block owned by the arena (offset + length is at most that block's
size), and no region shares a byte with the region of another call. -/
theorem Allocate_regions_inside_blocks_and_disjoint (sys : Sys) (sizes : List Nat)
    (hpos : ∀ b ∈ sizes, 0 < b) :
    match runAllocate sys Arena.new sizes with
    | .error e => e = Err.bad_alloc
    | .ok (out, s) =>
      out.map Region.len = sizes ∧
      (∀ r ∈ out, ∃! i, r.InBlock s.blocks_ i) ∧
      out.Pairwise (fun a b => ¬ a.Overlaps b) := by
  cases h : runAllocate sys Arena.new sizes with
  | error e => exact runAllocate_error sizes hpos h
  | ok q =>
    obtain ⟨out, s⟩ := q
    have hex : ∀ c ∈ sizes.map Call.Allocate, c.Exact := by
      intro c hc
      obtain ⟨b, _, rfl⟩ := List.mem_map.1 hc
      exact trivial
    obtain ⟨h1, h2, h3⟩ := run_regions_sound hex h
    refine ⟨?_, h2, h3⟩
    rw [h1, List.map_map]
    exact List.map_id _

/-- Instance of C1: six requests that exercise the fast path, the dedicated
block and the fresh standard block. -/
theorem Allocate_regions_inside_blocks_and_disjoint_witness :
    (∀ b ∈ [100, 2000, 2000, 30, 1000, 1000], 0 < b) ∧
    runAllocate bumpSys Arena.new [100, 2000, 2000, 30, 1000, 1000] =
      .ok ([⟨⟨some 0, 0⟩, 100⟩, ⟨⟨some 0, 100⟩, 2000⟩, ⟨⟨some 1, 0⟩, 2000⟩,
            ⟨⟨some 0, 2100⟩, 30⟩, ⟨⟨some 0, 2130⟩, 1000⟩, ⟨⟨some 2, 0⟩, 1000⟩],
        ⟨⟨some 2, 1000⟩, 3096, [⟨4096, 4096⟩, ⟨8224, 2000⟩, ⟨10256, 4096⟩], 10216⟩) ∧
    List.Pairwise (fun a b => ¬ a.Overlaps b)
      [(⟨⟨some 0, 0⟩, 100⟩ : Region), ⟨⟨some 0, 100⟩, 2000⟩, ⟨⟨some 1, 0⟩, 2000⟩,
        ⟨⟨some 0, 2100⟩, 30⟩, ⟨⟨some 0, 2130⟩, 1000⟩, ⟨⟨some 2, 0⟩, 1000⟩] :=
  ⟨by decide, by rfl,
    (Allocate_regions_inside_blocks_and_disjoint bumpSys [100, 2000, 2000, 30, 1000, 1000]
      (by decide)).2.2⟩

/-! ## Usage accounting -/

theorem footprint_append (blocks : List Block) (b : Block) :
    footprint (blocks ++ [b]) = footprint blocks + (b.size + sizeof_ptr) := by
  simp [footprint]

theorem footprint_eq (blocks : List Block) :
    footprint blocks = (blocks.map Block.size).sum + sizeof_ptr * blocks.length := by
  induction blocks with
  | nil => rfl
  | cons b bs ih =>
    simp only [footprint, List.map_cons, List.sum_cons, List.length_cons] at ih ⊢
    rw [ih]
    ring

theorem AllocateNewBlock_usage {sys : Sys} (hsys : SysBounded sys) {s s1 : Arena} {n : Nat}
    {p : Ptr} (hu : s.memory_usage_ = footprint s.blocks_)
    (h : AllocateNewBlock sys s n = .ok (p, s1)) :
    s1.memory_usage_ = s.memory_usage_ + (n + sizeof_ptr) ∧
    (∃ a, s1.blocks_ = s.blocks_ ++ [⟨a, n⟩]) ∧
    s1.memory_usage_ = footprint s1.blocks_ := by
  rw [AllocateNewBlock_eq] at h
  cases hs : sys s.blocks_ n with
  | none => rw [hs] at h; cases h
  | some a =>
    rw [hs] at h
    simp only [Except.ok.injEq, Prod.mk.injEq] at h
    have hb := hsys _ _ _ hs
    have h1 : addSz n sizeof_ptr = n + sizeof_ptr := addSz_of_lt (by omega)
    have h2 : addSz s.memory_usage_ (n + sizeof_ptr) = s.memory_usage_ + (n + sizeof_ptr) :=
      addSz_of_lt (by omega)
    rw [← h.2]
    simp only [h1, footprint_append]
    exact ⟨h2, ⟨a, rfl⟩, by rw [h2, hu]⟩

theorem AllocateFallback_usage {sys : Sys} (hsys : SysBounded sys) {s s1 : Arena}
    {bytes : Nat} {p : Ptr} (hu : s.memory_usage_ = footprint s.blocks_)
    (h : AllocateFallback sys s bytes = .ok (p, s1)) :
    s1.memory_usage_ = footprint s1.blocks_ := by
  obtain ⟨_, hcase⟩ := AllocateFallback_ok h
  rcases hcase with ⟨_, a, ha, hs⟩ | ⟨_, a, ha, hs⟩
  · have hb := hsys _ _ _ ha
    rw [hs]
    simp only [footprint_append]
    rw [addSz_of_lt (a := bytes) (by omega), addSz_of_lt (by omega), hu]
  · have hb := hsys _ _ _ ha
    rw [hs]
    simp only [footprint_append]
    rw [addSz_of_lt (a := kBlockSize) (by omega), addSz_of_lt (by omega), hu]

theorem exec_usage {sys : Sys} (hsys : SysBounded sys) {s s1 : Arena} {c : Call} {p : Ptr}
    (hu : s.memory_usage_ = footprint s.blocks_) (h : c.exec sys s = .ok (p, s1)) :
    s1.memory_usage_ = footprint s1.blocks_ := by
  cases c with
  | Allocate bytes =>
    obtain ⟨_, hcase⟩ := Allocate_ok h
    rcases hcase with ⟨_, _, hs⟩ | ⟨_, hf⟩
    · rw [hs]
      exact hu
    · exact AllocateFallback_usage hsys hu hf
  | AllocateAligned bytes =>
    rcases AllocateAligned_ok h with ⟨_, _, hs⟩ | ⟨_, hf⟩
    · rw [hs]
      exact hu
    · exact AllocateFallback_usage hsys hu hf

theorem run_invariant {sys : Sys} (P : Arena → Prop)
    (hstep : ∀ s c p s1, P s → Call.exec sys s c = .ok (p, s1) → P s1) (calls : List Call) :
    ∀ {s s2 : Arena} {out : List Region}, P s → run sys s calls = .ok (out, s2) → P s2 := by
  induction calls with
  | nil =>
    intro s s2 out hp h
    simp only [run, Except.ok.injEq, Prod.mk.injEq] at h
    rw [← h.2]
    exact hp
  | cons c cs ih =>
    intro s s2 out hp h
    simp only [run] at h
    cases hc : c.exec sys s with
    | error e => rw [hc] at h; cases h
    | ok q =>
      obtain ⟨p, s1⟩ := q
      rw [hc] at h
      simp only at h
      cases hr : run sys s1 cs with
      | error e => rw [hr] at h; cases h
      | ok q2 =>
        obtain ⟨out1, s3⟩ := q2
        rw [hr] at h
        simp only [Except.ok.injEq, Prod.mk.injEq] at h
        rw [← h.2]
        exact ih (hstep s c p s1 hp hc) hr

/-- C4: a fresh arena reports `MemoryUsage() = 0`; after any sequence of
`Allocate`/`AllocateAligned` calls on a fresh arena (with a system allocator
that respects the 64-bit address space) `MemoryUsage()` equals the sum of the
sizes of all blocks in `blocks_` plus `sizeof(char*)` per block; and each block
acquisition in such a state appends one block of `block_bytes` bytes and adds
exactly `block_bytes + sizeof(char*)` to `MemoryUsage()`. -/
theorem MemoryUsage_is_block_sizes_plus_bookkeeping (sys : Sys) (hsys : SysBounded sys)
    (calls : List Call) (out : List Region) (s : Arena)
    (hrun : run sys Arena.new calls = .ok (out, s)) :
    Arena.new.MemoryUsage = 0 ∧
    s.MemoryUsage = (s.blocks_.map Block.size).sum + sizeof_ptr * s.blocks_.length ∧
    ∀ block_bytes p s1, AllocateNewBlock sys s block_bytes = .ok (p, s1) →
      s1.MemoryUsage = s.MemoryUsage + (block_bytes + sizeof_ptr) ∧
      ∃ a, s1.blocks_ = s.blocks_ ++ [⟨a, block_bytes⟩] := by
  have hu : s.memory_usage_ = footprint s.blocks_ :=
    run_invariant (fun t => t.memory_usage_ = footprint t.blocks_)
      (fun _ _ _ _ hp hc => exec_usage hsys hp hc) calls (by rfl) hrun
  refine ⟨rfl, ?_, ?_⟩
  · rw [← footprint_eq]
    exact hu
  · intro n p s1 h
    obtain ⟨h1, h2, _⟩ := AllocateNewBlock_usage hsys hu h
    exact ⟨h1, h2⟩

/-- Instance of C4: a mixed run that acquires two standard blocks and one
dedicated block. -/
theorem MemoryUsage_is_block_sizes_plus_bookkeeping_witness :
    SysBounded bumpSys ∧
    run bumpSys Arena.new
        [.Allocate 100, .AllocateAligned 3, .Allocate 4000, .AllocateAligned 1024,
          .Allocate 3000] =
      .ok ([⟨⟨some 0, 0⟩, 100⟩, ⟨⟨some 0, 104⟩, 3⟩, ⟨⟨some 1, 0⟩, 4000⟩,
            ⟨⟨some 0, 112⟩, 1024⟩, ⟨⟨some 2, 0⟩, 3000⟩],
        ⟨⟨some 0, 1136⟩, 2960, [⟨4096, 4096⟩, ⟨8224, 4000⟩, ⟨12256, 3000⟩], 11120⟩) ∧
    (11120 : Nat) = ([4096, 4000, 3000] : List Nat).sum + sizeof_ptr * 3 :=
  ⟨bumpSys_bounded, by rfl,
    (MemoryUsage_is_block_sizes_plus_bookkeeping bumpSys bumpSys_bounded
      [.Allocate 100, .AllocateAligned 3, .Allocate 4000, .AllocateAligned 1024, .Allocate 3000]
      [⟨⟨some 0, 0⟩, 100⟩, ⟨⟨some 0, 104⟩, 3⟩, ⟨⟨some 1, 0⟩, 4000⟩,
        ⟨⟨some 0, 112⟩, 1024⟩, ⟨⟨some 2, 0⟩, 3000⟩]
      ⟨⟨some 0, 1136⟩, 2960, [⟨4096, 4096⟩, ⟨8224, 4000⟩, ⟨12256, 3000⟩], 11120⟩
      (by rfl)).2.1⟩

/-! ## Requested bytes against committed bytes -/

theorem AllocateFallback_budget {sys : Sys} {s s1 : Arena} {bytes T : Nat} {p : Ptr}
    (hb : T + s.alloc_bytes_remaining_ ≤ (s.blocks_.map Block.size).sum)
    (h : AllocateFallback sys s bytes = .ok (p, s1)) :
    T + bytes + s1.alloc_bytes_remaining_ ≤ (s1.blocks_.map Block.size).sum := by
  obtain ⟨_, hcase⟩ := AllocateFallback_ok h
  rcases hcase with ⟨_, a, _, hs⟩ | ⟨_, a, _, hs⟩
  · rw [hs]
    simp only [List.map_append, List.sum_append, List.map_cons, List.map_nil, List.sum_cons,
      List.sum_nil]
    omega
  · rw [hs]
    simp only [List.map_append, List.sum_append, List.map_cons, List.map_nil, List.sum_cons,
      List.sum_nil, kBlockSize]
    omega

theorem exec_budget {sys : Sys} {s s1 : Arena} {c : Call} {T : Nat} {p : Ptr}
    (hex : c.Exact) (hc : CursorOK s)
    (hb : T + s.alloc_bytes_remaining_ ≤ (s.blocks_.map Block.size).sum)
    (h : c.exec sys s = .ok (p, s1)) :
    T + c.bytes + s1.alloc_bytes_remaining_ ≤ (s1.blocks_.map Block.size).sum := by
  have hle := hc.rem_le
  have hlt : s.alloc_bytes_remaining_ < SIZE_MOD := by
    unfold kBlockSize at hle; unfold SIZE_MOD; omega
  cases c with
  | Allocate bytes =>
    obtain ⟨_, hcase⟩ := Allocate_ok h
    rcases hcase with ⟨hfit, _, hs⟩ | ⟨_, hf⟩
    · rw [hs]
      simp only [Call.bytes, subSz_of_le hlt hfit]
      omega
    · exact AllocateFallback_budget hb hf
  | AllocateAligned bytes =>
    obtain ⟨_, hsz⟩ := hex
    have hslop := slopOf_lt s
    have hadd : addSz bytes (slopOf s) = bytes + slopOf s := by
      rw [align_eq] at hsz
      exact addSz_of_lt (by omega)
    rcases AllocateAligned_ok h with ⟨hfit, _, hs⟩ | ⟨_, hf⟩
    · rw [hs]
      simp only [Call.bytes, subSz_of_le hlt hfit]
      omega
    · exact AllocateFallback_budget hb hf

theorem run_budget {sys : Sys} (calls : List Call) :
    ∀ {s s2 : Arena} {out : List Region} {T : Nat}, (∀ c ∈ calls, c.Exact) → CursorOK s →
      T + s.alloc_bytes_remaining_ ≤ (s.blocks_.map Block.size).sum →
      run sys s calls = .ok (out, s2) →
      T + (calls.map Call.bytes).sum + s2.alloc_bytes_remaining_ ≤
        (s2.blocks_.map Block.size).sum := by
  induction calls with
  | nil =>
    intro s s2 out T _ _ hb h
    simp only [run, Except.ok.injEq, Prod.mk.injEq] at h
    rw [← h.2]
    simpa using hb
  | cons c cs ih =>
    intro s s2 out T hex hc hb h
    simp only [run] at h
    cases he : c.exec sys s with
    | error e => rw [he] at h; cases h
    | ok q =>
      obtain ⟨p, s1⟩ := q
      rw [he] at h
      simp only at h
      cases hr : run sys s1 cs with
      | error e => rw [hr] at h; cases h
      | ok q2 =>
        obtain ⟨out1, s3⟩ := q2
        rw [hr] at h
        simp only [Except.ok.injEq, Prod.mk.injEq] at h
        have h1 := exec_budget (hex c (List.mem_cons_self _ _)) hc hb he
        have h2 := ih (fun c hc => hex c (List.mem_cons_of_mem _ hc)) (exec_cursorOK hc he) h1 hr
        rw [← h.2]
        simp only [List.map_cons, List.sum_cons]
        omega

theorem run_usage_ge_requested {sys : Sys} (hsys : SysBounded sys) {calls : List Call}
    {out : List Region} {s : Arena} (hex : ∀ c ∈ calls, c.Exact)
    (h : run sys Arena.new calls = .ok (out, s)) :
    (calls.map Call.bytes).sum ≤ s.MemoryUsage := by
  have hu : s.memory_usage_ = footprint s.blocks_ :=
    run_invariant (fun t => t.memory_usage_ = footprint t.blocks_)
      (fun _ _ _ _ hp hc => exec_usage hsys hp hc) calls (by rfl) h
  have hb := @run_budget sys calls Arena.new s out 0 hex CursorOK_new (by simp [Arena.new]) h
  unfold Arena.MemoryUsage
  rw [hu, footprint_eq]
  omega

/-! ## Wrap-around of `bytes + slop` in `AllocateAligned` -/

/-- C3 at the failing input: on the state reached from a fresh arena by
`Allocate(1)`, the call `AllocateAligned(2^64 - 7)` computes `slop = 7` and
`needed = (2^64 - 7) + 7 = 0` modulo `2 ^ 64`, takes the in-block path, and
returns offset 8 of the 4096-byte block without moving the cursor: the region
of `2^64 - 7` bytes it returns lies inside no block of the arena, and the next
`AllocateAligned(8)` returns offset 8 of the same block again, so its region
`[8, 16)` shares bytes with the region returned by the earlier call. -/
theorem AllocateAligned_wrapped_size_leaves_block :
    run bumpSys Arena.new [.Allocate 1] =
      .ok ([⟨⟨some 0, 0⟩, 1⟩], ⟨⟨some 0, 1⟩, 4095, [⟨4096, 4096⟩], 4104⟩) ∧
    (0 < 18446744073709551609 ∧ 18446744073709551609 < SIZE_MOD) ∧
    AllocateAligned bumpSys ⟨⟨some 0, 1⟩, 4095, [⟨4096, 4096⟩], 4104⟩ 18446744073709551609 =
      .ok (⟨some 0, 8⟩, ⟨⟨some 0, 1⟩, 4095, [⟨4096, 4096⟩], 4104⟩) ∧
    (¬ ∃ i, Region.InBlock [⟨4096, 4096⟩] ⟨⟨some 0, 8⟩, 18446744073709551609⟩ i) ∧
    AllocateAligned bumpSys ⟨⟨some 0, 1⟩, 4095, [⟨4096, 4096⟩], 4104⟩ 8 =
      .ok (⟨some 0, 8⟩, ⟨⟨some 0, 16⟩, 4080, [⟨4096, 4096⟩], 4104⟩) ∧
    Region.Overlaps ⟨⟨some 0, 8⟩, 8⟩ ⟨⟨some 0, 8⟩, 18446744073709551609⟩ := by
  refine ⟨by rfl, by decide, by rfl, ?_, by rfl, by decide⟩
  rintro ⟨i, h1, b, h2, h3⟩
  simp only [Option.some.injEq] at h1
  subst h1
  simp only [List.getElem?_cons_zero, Option.some.injEq] at h2
  subst h2
  simp only at h3
  omega

/-- C5 at the failing input: on a fresh arena `Allocate(1)` followed by
`AllocateAligned(2^64 - 7)` returns from both calls with a single 4096-byte
block acquired, so `MemoryUsage()` is 4104 while the requested sizes total
`2^64 - 6`. -/
theorem MemoryUsage_below_requested_total_after_wrap :
    run bumpSys Arena.new [.Allocate 1, .AllocateAligned 18446744073709551609] =
      .ok ([⟨⟨some 0, 0⟩, 1⟩, ⟨⟨some 0, 8⟩, 18446744073709551609⟩],
        ⟨⟨some 0, 1⟩, 4095, [⟨4096, 4096⟩], 4104⟩) ∧
    (⟨⟨some 0, 1⟩, 4095, [⟨4096, 4096⟩], 4104⟩ : Arena).MemoryUsage = 4104 ∧
    ¬ (([.Allocate 1, .AllocateAligned 18446744073709551609] : List Call).map Call.bytes).sum ≤
      (⟨⟨some 0, 1⟩, 4095, [⟨4096, 4096⟩], 4104⟩ : Arena).MemoryUsage := by
  refine ⟨by rfl, by rfl, by decide⟩

/-! ## Reachable states are well formed -/

theorem CursorOK.owned {s : Arena} (h : CursorOK s) :
    ∀ i, s.alloc_ptr_.blk = some i → i < s.blocks_.length := by
  intro i hi
  rcases h with ⟨hnull, _⟩ | ⟨j, b, h1, h2, _, _⟩
  · rw [hnull] at hi
    cases hi
  · rw [h1] at hi
    simp only [Option.some.injEq] at hi
    rw [← hi]
    exact lt_length_of_getElem? h2

theorem run_cursorOK {sys : Sys} {calls : List Call} {out : List Region} {s : Arena}
    (h : run sys Arena.new calls = .ok (out, s)) :
    CursorOK s ∧ (∀ i, s.alloc_ptr_.blk = some i → i < s.blocks_.length) ∧
      s.alloc_bytes_remaining_ < SIZE_MOD := by
  have hc : CursorOK s :=
    run_invariant CursorOK (fun _ _ _ _ hp he => exec_cursorOK hp he) calls CursorOK_new h
  refine ⟨hc, hc.owned, ?_⟩
  have := hc.rem_le
  unfold kBlockSize at this
  unfold SIZE_MOD
  omega

/-! ## The paths of `AllocateAligned` -/

theorem slopOf_least (s : Arena) :
    align ∣ uintptr s.blocks_ s.alloc_ptr_ + slopOf s ∧
    (∀ k, align ∣ uintptr s.blocks_ s.alloc_ptr_ + k → slopOf s ≤ k) ∧
    slopOf s < align ∧
    (align ∣ uintptr s.blocks_ s.alloc_ptr_ → slopOf s = 0) := by
  rw [align_eq, slopOf_eq]
  refine ⟨?_, ?_, ?_, ?_⟩
  · omega
  · intro k hk
    omega
  · omega
  · intro h
    omega

/-- C15: aligned in-block path.  With `align = max(8, sizeof(void*))`, the
`slop` computed by `AllocateAligned` is the least natural number such that the
cursor address plus `slop` is divisible by `align` (it is below `align`, and 0
when the cursor is already aligned); and in every state (`remaining` a
`size_t` value) and for every `bytes` with `slop + bytes <= remaining`,
`AllocateAligned(bytes)` returns `cursor + slop`, advances the cursor by
`slop + bytes`, decreases `remaining` by `slop + bytes`, and leaves the block
list and `MemoryUsage()` unchanged. -/
theorem AllocateAligned_in_block_path (sys : Sys) (s : Arena) :
    (align ∣ uintptr s.blocks_ s.alloc_ptr_ + slopOf s ∧
      (∀ k, align ∣ uintptr s.blocks_ s.alloc_ptr_ + k → slopOf s ≤ k) ∧
      slopOf s < align ∧
      (align ∣ uintptr s.blocks_ s.alloc_ptr_ → slopOf s = 0)) ∧
    ∀ bytes, s.alloc_bytes_remaining_ < SIZE_MOD →
      slopOf s + bytes ≤ s.alloc_bytes_remaining_ →
      ∃ s1, AllocateAligned sys s bytes = .ok (s.alloc_ptr_.add (slopOf s), s1) ∧
        s1.alloc_ptr_ = s.alloc_ptr_.add (slopOf s + bytes) ∧
        s1.alloc_bytes_remaining_ + (slopOf s + bytes) = s.alloc_bytes_remaining_ ∧
        s1.blocks_ = s.blocks_ ∧
        s1.MemoryUsage = s.MemoryUsage := by
  refine ⟨slopOf_least s, ?_⟩
  intro bytes hsz hfit
  have hadd : addSz bytes (slopOf s) = slopOf s + bytes := by
    rw [addSz_of_lt (by omega)]
    omega
  have hle : addSz bytes (slopOf s) ≤ s.alloc_bytes_remaining_ := by omega
  refine ⟨_, AllocateAligned_inblock sys s bytes hle, ?_, ?_, rfl, rfl⟩
  · simp only [hadd, Ptr.add]
  · simp only [hadd, subSz_of_le hsz hfit]
    omega

/-- Instance of C15: 100 bytes requested at a cursor one byte into an aligned
block, so 7 bytes of padding are consumed. -/
theorem AllocateAligned_in_block_path_witness :
    ((4095 : Nat) < SIZE_MOD ∧
      slopOf ⟨⟨some 0, 1⟩, 4095, [⟨4096, 4096⟩], 4104⟩ + 100 ≤ 4095) ∧
    slopOf ⟨⟨some 0, 1⟩, 4095, [⟨4096, 4096⟩], 4104⟩ = 7 ∧
    ∃ s1, AllocateAligned bumpSys ⟨⟨some 0, 1⟩, 4095, [⟨4096, 4096⟩], 4104⟩ 100 =
        .ok ((⟨some 0, 1⟩ : Ptr).add (slopOf ⟨⟨some 0, 1⟩, 4095, [⟨4096, 4096⟩], 4104⟩), s1) ∧
      s1.alloc_ptr_ =
        (⟨some 0, 1⟩ : Ptr).add (slopOf ⟨⟨some 0, 1⟩, 4095, [⟨4096, 4096⟩], 4104⟩ + 100) ∧
      s1.alloc_bytes_remaining_ +
          (slopOf ⟨⟨some 0, 1⟩, 4095, [⟨4096, 4096⟩], 4104⟩ + 100) = 4095 ∧
      s1.blocks_ = [⟨4096, 4096⟩] ∧
      s1.MemoryUsage = 4104 :=
  ⟨⟨by decide, by decide⟩, by rfl,
    (AllocateAligned_in_block_path bumpSys ⟨⟨some 0, 1⟩, 4095, [⟨4096, 4096⟩], 4104⟩).2 100
      (by decide) (by decide)⟩

/-- C16 as stated fails: in the state reached from a fresh arena by
`Allocate(1)` (cursor at offset 1, 4095 bytes remaining, `slop = 7`), a request
of 4090 bytes has `slop + bytes = 4097 > remaining`; `AllocateAligned(4090)`
goes to `AllocateFallback` and returns offset 0 of a new dedicated block,
whereas `Allocate(4090)` on the same state takes its fast path and returns the
old cursor. -/
theorem AllocateAligned_fallback_differs_from_Allocate :
    run bumpSys Arena.new [.Allocate 1] =
      .ok ([⟨⟨some 0, 0⟩, 1⟩], ⟨⟨some 0, 1⟩, 4095, [⟨4096, 4096⟩], 4104⟩) ∧
    slopOf ⟨⟨some 0, 1⟩, 4095, [⟨4096, 4096⟩], 4104⟩ + 4090 > 4095 ∧
    AllocateAligned bumpSys ⟨⟨some 0, 1⟩, 4095, [⟨4096, 4096⟩], 4104⟩ 4090 =
      .ok (⟨some 1, 0⟩, ⟨⟨some 0, 1⟩, 4095, [⟨4096, 4096⟩, ⟨8224, 4090⟩], 8202⟩) ∧
    Allocate bumpSys ⟨⟨some 0, 1⟩, 4095, [⟨4096, 4096⟩], 4104⟩ 4090 =
      .ok (⟨some 0, 1⟩, ⟨⟨some 0, 4091⟩, 5, [⟨4096, 4096⟩], 4104⟩) ∧
    AllocateAligned bumpSys ⟨⟨some 0, 1⟩, 4095, [⟨4096, 4096⟩], 4104⟩ 4090 ≠
      Allocate bumpSys ⟨⟨some 0, 1⟩, 4095, [⟨4096, 4096⟩], 4104⟩ 4090 := by
  refine ⟨by rfl, by decide, by rfl, by rfl, ?_⟩
  intro h
  have h1 : AllocateAligned bumpSys ⟨⟨some 0, 1⟩, 4095, [⟨4096, 4096⟩], 4104⟩ 4090 =
      .ok (⟨some 1, 0⟩, ⟨⟨some 0, 1⟩, 4095, [⟨4096, 4096⟩, ⟨8224, 4090⟩], 8202⟩) := by rfl
  have h2 : Allocate bumpSys ⟨⟨some 0, 1⟩, 4095, [⟨4096, 4096⟩], 4104⟩ 4090 =
      .ok (⟨some 0, 1⟩, ⟨⟨some 0, 4091⟩, 5, [⟨4096, 4096⟩], 4104⟩) := by rfl
  rw [h1, h2] at h
  simp at h

/-- C16, amended: when every block of the system allocator starts at an
address divisible by `align`, then for every arena state and every `bytes` for
which `slop + bytes > remaining` and the sum stays below `2 ^ 64`,
`AllocateAligned(bytes)` behaves exactly as the fallback policy
`AllocateFallback(bytes)` on the same state: same result (returned pointer, or
`bad_alloc`) and same resulting cursor, remaining, block list and
`MemoryUsage()`.  This is also the behaviour of `Allocate(bytes)` whenever
`bytes > remaining`. -/
theorem AllocateAligned_fallback_eq_AllocateFallback (sys : Sys) (hsys : SysAligned sys)
    (s : Arena) (bytes : Nat) (hgt : s.alloc_bytes_remaining_ < slopOf s + bytes)
    (hnw : slopOf s + bytes < SIZE_MOD) :
    AllocateAligned sys s bytes = AllocateFallback sys s bytes ∧
    (s.alloc_bytes_remaining_ < bytes →
      AllocateAligned sys s bytes = Allocate sys s bytes) := by
  have hadd : addSz bytes (slopOf s) = bytes + slopOf s := addSz_of_lt (by omega)
  have h1 : AllocateAligned sys s bytes = AllocateFallback sys s bytes := by
    rw [AllocateAligned_fallback sys s bytes (by omega)]
    cases hf : AllocateFallback sys s bytes with
    | error e => rfl
    | ok r =>
      obtain ⟨p, s1⟩ := r
      simp only [AllocateFallback_aligned hsys hf, if_true]
  refine ⟨h1, ?_⟩
  intro hlt
  rw [h1, Allocate_slow sys s bytes hlt]

/-- Instance of the amended C16: 4090 bytes requested with 4095 remaining and
`slop = 7`. -/
theorem AllocateAligned_fallback_eq_AllocateFallback_witness :
    (SysAligned bumpSys ∧
      4095 < slopOf ⟨⟨some 0, 1⟩, 4095, [⟨4096, 4096⟩], 4104⟩ + 4090 ∧
      slopOf ⟨⟨some 0, 1⟩, 4095, [⟨4096, 4096⟩], 4104⟩ + 4090 < SIZE_MOD) ∧
    AllocateAligned bumpSys ⟨⟨some 0, 1⟩, 4095, [⟨4096, 4096⟩], 4104⟩ 4090 =
      AllocateFallback bumpSys ⟨⟨some 0, 1⟩, 4095, [⟨4096, 4096⟩], 4104⟩ 4090 ∧
    AllocateFallback bumpSys ⟨⟨some 0, 1⟩, 4095, [⟨4096, 4096⟩], 4104⟩ 4090 =
      .ok (⟨some 1, 0⟩, ⟨⟨some 0, 1⟩, 4095, [⟨4096, 4096⟩, ⟨8224, 4090⟩], 8202⟩) :=
  ⟨⟨bumpSys_aligned, by decide, by decide⟩,
    (AllocateAligned_fallback_eq_AllocateFallback bumpSys bumpSys_aligned
      ⟨⟨some 0, 1⟩, 4095, [⟨4096, 4096⟩], 4104⟩ 4090 (by decide) (by decide)).1,
    by rfl⟩

/-- C17 at the failing input: in the state reached from a fresh arena by
`Allocate(1)` the cursor is at offset 1 with 4095 bytes remaining and
`slop = 7`.  For `bytes = 2^64 - 7` the exact sum `slop + bytes = 2^64` exceeds
`remaining`, but the machine sum `needed` is 0, the test
`needed <= alloc_bytes_remaining_` succeeds, and `AllocateAligned` serves the
request from the active block: it returns `cursor + slop` and acquires no
block. -/
theorem AllocateAligned_needed_wraps_to_in_block_path :
    run bumpSys Arena.new [.Allocate 1] =
      .ok ([⟨⟨some 0, 0⟩, 1⟩], ⟨⟨some 0, 1⟩, 4095, [⟨4096, 4096⟩], 4104⟩) ∧
    18446744073709551609 < SIZE_MOD ∧
    slopOf ⟨⟨some 0, 1⟩, 4095, [⟨4096, 4096⟩], 4104⟩ = 7 ∧
    ¬ (slopOf ⟨⟨some 0, 1⟩, 4095, [⟨4096, 4096⟩], 4104⟩ + 18446744073709551609 ≤ 4095) ∧
    addSz 18446744073709551609 (slopOf ⟨⟨some 0, 1⟩, 4095, [⟨4096, 4096⟩], 4104⟩) = 0 ∧
    AllocateAligned bumpSys ⟨⟨some 0, 1⟩, 4095, [⟨4096, 4096⟩], 4104⟩ 18446744073709551609 =
      .ok ((⟨some 0, 1⟩ : Ptr).add 7, ⟨⟨some 0, 1⟩, 4095, [⟨4096, 4096⟩], 4104⟩) := by
  refine ⟨by rfl, by decide, by rfl, by decide, by rfl, by rfl⟩

/-- C11 at the failing input: `AllocateAligned(0)` is accepted.  On a fresh
arena it returns the null pointer without any failure; in the state reached by
`Allocate(1)` it returns offset 8 of the active block and moves the cursor
there, consuming 7 bytes; whereas `Allocate(0)` fails its assertion in both
states. -/
theorem AllocateAligned_zero_is_accepted :
    AllocateAligned bumpSys Arena.new 0 = .ok (nullptr, Arena.new) ∧
    AllocateAligned bumpSys ⟨⟨some 0, 1⟩, 4095, [⟨4096, 4096⟩], 4104⟩ 0 =
      .ok (⟨some 0, 8⟩, ⟨⟨some 0, 8⟩, 4088, [⟨4096, 4096⟩], 4104⟩) ∧
    Allocate bumpSys Arena.new 0 = .error Err.assertion ∧
    Allocate bumpSys ⟨⟨some 0, 1⟩, 4095, [⟨4096, 4096⟩], 4104⟩ 0 = .error Err.assertion := by
  refine ⟨by rfl, by rfl, by rfl, by rfl⟩

/-! ## Effect of one call on the block list and the usage counter -/

theorem AllocateFallback_step {sys : Sys} {s s1 : Arena} {bytes : Nat} {p : Ptr}
    (h : AllocateFallback sys s bytes = .ok (p, s1)) :
    (1024 < bytes ∧ ∃ a, sys s.blocks_ bytes = some a ∧
        s1.blocks_ = s.blocks_ ++ [⟨a, bytes⟩] ∧
        s1.memory_usage_ = addSz s.memory_usage_ (addSz bytes sizeof_ptr)) ∨
    (bytes ≤ 1024 ∧ ∃ a, sys s.blocks_ kBlockSize = some a ∧
        s1.blocks_ = s.blocks_ ++ [⟨a, kBlockSize⟩] ∧
        s1.memory_usage_ = addSz s.memory_usage_ (addSz kBlockSize sizeof_ptr)) := by
  obtain ⟨_, hcase⟩ := AllocateFallback_ok h
  rcases hcase with ⟨hb, a, ha, hs⟩ | ⟨hb, a, ha, hs⟩
  · subst hs
    exact Or.inl ⟨hb, a, ha, rfl, rfl⟩
  · subst hs
    exact Or.inr ⟨hb, a, ha, rfl, rfl⟩

theorem exec_step {sys : Sys} {s s1 : Arena} {c : Call} {p : Ptr}
    (h : c.exec sys s = .ok (p, s1)) :
    (s1.blocks_ = s.blocks_ ∧ s1.memory_usage_ = s.memory_usage_) ∨
    (1024 < c.bytes ∧ ∃ a, sys s.blocks_ c.bytes = some a ∧
        s1.blocks_ = s.blocks_ ++ [⟨a, c.bytes⟩] ∧
        s1.memory_usage_ = addSz s.memory_usage_ (addSz c.bytes sizeof_ptr)) ∨
    (c.bytes ≤ 1024 ∧ ∃ a, sys s.blocks_ kBlockSize = some a ∧
        s1.blocks_ = s.blocks_ ++ [⟨a, kBlockSize⟩] ∧
        s1.memory_usage_ = addSz s.memory_usage_ (addSz kBlockSize sizeof_ptr)) := by
  cases c with
  | Allocate bytes =>
    obtain ⟨_, hcase⟩ := Allocate_ok h
    rcases hcase with ⟨_, _, hs⟩ | ⟨_, hf⟩
    · subst hs
      exact Or.inl ⟨rfl, rfl⟩
    · exact Or.inr (AllocateFallback_step hf)
  | AllocateAligned bytes =>
    rcases AllocateAligned_ok h with ⟨_, _, hs⟩ | ⟨_, hf⟩
    · subst hs
      exact Or.inl ⟨rfl, rfl⟩
    · exact Or.inr (AllocateFallback_step hf)

theorem exec_usage_step {sys : Sys} (hsys : SysBounded sys) {s s1 : Arena} {c : Call}
    {p : Ptr} (hu : s.memory_usage_ = footprint s.blocks_)
    (h : c.exec sys s = .ok (p, s1)) :
    (s1.blocks_ = s.blocks_ ∧ s1.memory_usage_ = s.memory_usage_) ∨
    (1024 < c.bytes ∧ (∃ a, s1.blocks_ = s.blocks_ ++ [⟨a, c.bytes⟩]) ∧
        s1.memory_usage_ = s.memory_usage_ + (c.bytes + sizeof_ptr)) ∨
    (c.bytes ≤ 1024 ∧ (∃ a, s1.blocks_ = s.blocks_ ++ [⟨a, kBlockSize⟩]) ∧
        s1.memory_usage_ = s.memory_usage_ + (kBlockSize + sizeof_ptr)) := by
  rcases exec_step h with h0 | ⟨hb, a, ha, hbl, hus⟩ | ⟨hb, a, ha, hbl, hus⟩
  · exact Or.inl h0
  · have hfit := hsys _ _ _ ha
    right; left
    refine ⟨hb, ⟨a, hbl⟩, ?_⟩
    rw [hus, addSz_of_lt (a := c.bytes) (by omega), addSz_of_lt (by omega)]
  · have hfit := hsys _ _ _ ha
    right; right
    refine ⟨hb, ⟨a, hbl⟩, ?_⟩
    rw [hus, addSz_of_lt (a := kBlockSize) (by omega), addSz_of_lt (by omega)]

theorem run_usage_eq {sys : Sys} (hsys : SysBounded sys) {calls : List Call}
    {out : List Region} {s : Arena} (h : run sys Arena.new calls = .ok (out, s)) :
    s.memory_usage_ = footprint s.blocks_ :=
  run_invariant (fun t => t.memory_usage_ = footprint t.blocks_)
    (fun _ _ _ _ hp hc => exec_usage hsys hp hc) calls (by rfl) h

theorem run_usage_bound {sys : Sys} (hsys : SysBounded sys) (calls : List Call) :
    ∀ {s s2 : Arena} {out : List Region}, s.memory_usage_ = footprint s.blocks_ →
      run sys s calls = .ok (out, s2) →
      s2.blocks_.length ≤ s.blocks_.length + calls.length ∧
      s2.memory_usage_ ≤
        s.memory_usage_ + (calls.map (fun c => max c.bytes 4096 + sizeof_ptr)).sum := by
  induction calls with
  | nil =>
    intro s s2 out _ h
    simp only [run, Except.ok.injEq, Prod.mk.injEq] at h
    rw [← h.2]
    simp
  | cons c cs ih =>
    intro s s2 out hu h
    simp only [run] at h
    cases he : c.exec sys s with
    | error e => rw [he] at h; cases h
    | ok q =>
      obtain ⟨p, s1⟩ := q
      rw [he] at h
      simp only at h
      cases hr : run sys s1 cs with
      | error e => rw [hr] at h; cases h
      | ok q2 =>
        obtain ⟨out1, s3⟩ := q2
        rw [hr] at h
        simp only [Except.ok.injEq, Prod.mk.injEq] at h
        obtain ⟨ih1, ih2⟩ := ih (exec_usage hsys hu he) hr
        rw [← h.2]
        simp only [List.length_cons, List.map_cons, List.sum_cons]
        rcases exec_usage_step hsys hu he with ⟨hb, hm⟩ | ⟨_, ⟨a, hb⟩, hm⟩ | ⟨_, ⟨a, hb⟩, hm⟩
        · rw [hb] at ih1
          rw [hm] at ih2
          omega
        · rw [hb] at ih1
          rw [hm] at ih2
          simp only [List.length_append, List.length_singleton] at ih1
          omega
        · rw [hb] at ih1
          rw [hm] at ih2
          simp only [List.length_append, List.length_singleton] at ih1
          simp only [kBlockSize] at ih2
          omega

/-- C18: every `Allocate`/`AllocateAligned` call that returns acquires at most
one block, and the block list after the call is the block list before it
followed by the blocks acquired (existing entries keep their position, address
and size); and when the call is made in a state reachable from a fresh arena,
with a system allocator that respects the 64-bit address space,
`MemoryUsage()` after the call is at least `MemoryUsage()` before it. -/
theorem blocks_append_only_and_usage_monotone (sys : Sys) (s s1 : Arena) (c : Call) (p : Ptr)
    (hexec : c.exec sys s = .ok (p, s1)) :
    (∃ t, s1.blocks_ = s.blocks_ ++ t ∧ t.length ≤ 1) ∧
    (SysBounded sys → ∀ calls out, run sys Arena.new calls = .ok (out, s) →
      s.MemoryUsage ≤ s1.MemoryUsage) := by
  constructor
  · rcases exec_step hexec with ⟨hb, _⟩ | ⟨_, a, _, hb, _⟩ | ⟨_, a, _, hb, _⟩
    · exact ⟨[], by rw [hb, List.append_nil], by decide⟩
    · exact ⟨_, hb, by simp⟩
    · exact ⟨_, hb, by simp⟩
  · intro hsys calls out hrun
    have hu := run_usage_eq hsys hrun
    unfold Arena.MemoryUsage
    rcases exec_usage_step hsys hu hexec with ⟨_, hm⟩ | ⟨_, _, hm⟩ | ⟨_, _, hm⟩ <;> omega

/-- Instance of C18: after `Allocate(100)` on a fresh arena, `Allocate(4000)`
appends one dedicated block and raises the usage from 4104 to 8112. -/
theorem blocks_append_only_and_usage_monotone_witness :
    (Call.exec bumpSys ⟨⟨some 0, 100⟩, 3996, [⟨4096, 4096⟩], 4104⟩ (.Allocate 4000) =
        .ok (⟨some 1, 0⟩, ⟨⟨some 0, 100⟩, 3996, [⟨4096, 4096⟩, ⟨8224, 4000⟩], 8112⟩) ∧
      SysBounded bumpSys ∧
      run bumpSys Arena.new [.Allocate 100] =
        .ok ([⟨⟨some 0, 0⟩, 100⟩], ⟨⟨some 0, 100⟩, 3996, [⟨4096, 4096⟩], 4104⟩)) ∧
    (∃ t, [(⟨4096, 4096⟩ : Block), ⟨8224, 4000⟩] = [⟨4096, 4096⟩] ++ t ∧ t.length ≤ 1) ∧
    (4104 : Nat) ≤ 8112 :=
  ⟨⟨by rfl, bumpSys_bounded, by rfl⟩,
    (blocks_append_only_and_usage_monotone bumpSys ⟨⟨some 0, 100⟩, 3996, [⟨4096, 4096⟩], 4104⟩
      ⟨⟨some 0, 100⟩, 3996, [⟨4096, 4096⟩, ⟨8224, 4000⟩], 8112⟩ (.Allocate 4000) ⟨some 1, 0⟩
      (by rfl)).1,
    (blocks_append_only_and_usage_monotone bumpSys ⟨⟨some 0, 100⟩, 3996, [⟨4096, 4096⟩], 4104⟩
      ⟨⟨some 0, 100⟩, 3996, [⟨4096, 4096⟩, ⟨8224, 4000⟩], 8112⟩ (.Allocate 4000) ⟨some 1, 0⟩
      (by rfl)).2 bumpSys_bounded [.Allocate 100] [⟨⟨some 0, 0⟩, 100⟩] (by rfl)⟩

/-- C19: in a state reachable from a fresh arena, with a system allocator that
respects the 64-bit address space, a single `Allocate(bytes)` or
`AllocateAligned(bytes)` call that returns increases `MemoryUsage()` by exactly
0 (no block acquired), by `bytes + sizeof(char*)` (one block of `bytes` bytes,
only when `bytes > 1024`), or by `4096 + sizeof(char*)` (one block of 4096
bytes, only when `bytes <= 1024`); and after `n` calls with sizes `b_1..b_n`
on a fresh arena the number of blocks is at most `n` and `MemoryUsage()` is at
most the sum over `i` of `max(b_i, 4096) + sizeof(char*)`. -/
theorem MemoryUsage_increments_and_upper_bound (sys : Sys) (hsys : SysBounded sys)
    (calls : List Call) (out : List Region) (s : Arena)
    (hrun : run sys Arena.new calls = .ok (out, s)) :
    (∀ c p s1, Call.exec sys s c = .ok (p, s1) →
      (s1.blocks_ = s.blocks_ ∧ s1.MemoryUsage = s.MemoryUsage) ∨
      (1024 < c.bytes ∧ (∃ a, s1.blocks_ = s.blocks_ ++ [⟨a, c.bytes⟩]) ∧
        s1.MemoryUsage = s.MemoryUsage + (c.bytes + sizeof_ptr)) ∨
      (c.bytes ≤ 1024 ∧ (∃ a, s1.blocks_ = s.blocks_ ++ [⟨a, 4096⟩]) ∧
        s1.MemoryUsage = s.MemoryUsage + (4096 + sizeof_ptr))) ∧
    s.blocks_.length ≤ calls.length ∧
    s.MemoryUsage ≤ (calls.map (fun c => max c.bytes 4096 + sizeof_ptr)).sum := by
  have hu := run_usage_eq hsys hrun
  refine ⟨?_, ?_, ?_⟩
  · intro c p s1 he
    exact exec_usage_step hsys hu he
  · have := (run_usage_bound hsys calls (by rfl) hrun).1
    simpa [Arena.new] using this
  · have := (run_usage_bound hsys calls (by rfl) hrun).2
    simpa [Arena.new, Arena.MemoryUsage] using this

/-- Instance of C19: five mixed calls acquire three blocks and commit 11120
bytes, below the bound of 20520. -/
theorem MemoryUsage_increments_and_upper_bound_witness :
    (SysBounded bumpSys ∧
      run bumpSys Arena.new
          [.Allocate 100, .AllocateAligned 3, .Allocate 4000, .AllocateAligned 1024,
            .Allocate 3000] =
        .ok ([⟨⟨some 0, 0⟩, 100⟩, ⟨⟨some 0, 104⟩, 3⟩, ⟨⟨some 1, 0⟩, 4000⟩,
              ⟨⟨some 0, 112⟩, 1024⟩, ⟨⟨some 2, 0⟩, 3000⟩],
          ⟨⟨some 0, 1136⟩, 2960, [⟨4096, 4096⟩, ⟨8224, 4000⟩, ⟨12256, 3000⟩], 11120⟩)) ∧
    (3 : Nat) ≤ 5 ∧ (11120 : Nat) ≤ 20520 :=
  ⟨⟨bumpSys_bounded, by rfl⟩,
    (MemoryUsage_increments_and_upper_bound bumpSys bumpSys_bounded
      [.Allocate 100, .AllocateAligned 3, .Allocate 4000, .AllocateAligned 1024, .Allocate 3000]
      [⟨⟨some 0, 0⟩, 100⟩, ⟨⟨some 0, 104⟩, 3⟩, ⟨⟨some 1, 0⟩, 4000⟩,
        ⟨⟨some 0, 112⟩, 1024⟩, ⟨⟨some 2, 0⟩, 3000⟩]
      ⟨⟨some 0, 1136⟩, 2960, [⟨4096, 4096⟩, ⟨8224, 4000⟩, ⟨12256, 3000⟩], 11120⟩
      (by rfl)).2.1,
    (MemoryUsage_increments_and_upper_bound bumpSys bumpSys_bounded
      [.Allocate 100, .AllocateAligned 3, .Allocate 4000, .AllocateAligned 1024, .Allocate 3000]
      [⟨⟨some 0, 0⟩, 100⟩, ⟨⟨some 0, 104⟩, 3⟩, ⟨⟨some 1, 0⟩, 4000⟩,
        ⟨⟨some 0, 112⟩, 1024⟩, ⟨⟨some 2, 0⟩, 3000⟩]
      ⟨⟨some 0, 1136⟩, 2960, [⟨4096, 4096⟩, ⟨8224, 4000⟩, ⟨12256, 3000⟩], 11120⟩
      (by rfl)).2.2⟩

/-! ## Bytes discarded when the active block is replaced -/

theorem exec_bases_aligned {sys : Sys} (hsys : SysAligned sys) {s s1 : Arena} {c : Call}
    {p : Ptr} (hb : ∀ b ∈ s.blocks_, 8 ∣ b.base) (h : c.exec sys s = .ok (p, s1)) :
    ∀ b ∈ s1.blocks_, 8 ∣ b.base := by
  have key : ∀ a n, sys s.blocks_ n = some a →
      ∀ b ∈ s.blocks_ ++ [(⟨a, n⟩ : Block)], 8 ∣ b.base := by
    intro a n ha b hmem
    rcases List.mem_append.1 hmem with h1 | h1
    · exact hb b h1
    · have h8 := hsys _ _ _ ha
      rw [align_eq] at h8
      rw [List.mem_singleton.1 h1]
      exact h8
  rcases exec_step h with ⟨h0, _⟩ | ⟨_, a, ha, hbl, _⟩ | ⟨_, a, ha, hbl, _⟩
  · rw [h0]
    exact hb
  · rw [hbl]
    exact key a _ ha
  · rw [hbl]
    exact key a _ ha

theorem run_bases_aligned {sys : Sys} (hsys : SysAligned sys) {calls : List Call}
    {out : List Region} {s : Arena} (h : run sys Arena.new calls = .ok (out, s)) :
    ∀ b ∈ s.blocks_, 8 ∣ b.base :=
  run_invariant (fun t => ∀ b ∈ t.blocks_, 8 ∣ b.base)
    (fun _ _ _ _ hp hc => exec_bases_aligned hsys hp hc) calls
    (by intro b hb; cases hb) h

theorem slopOf_eq_rem_mod {s : Arena} (hc : CursorOK s) (hb : ∀ b ∈ s.blocks_, 8 ∣ b.base) :
    slopOf s = s.alloc_bytes_remaining_ % 8 := by
  rw [slopOf_eq]
  rcases hc with ⟨hnull, h0⟩ | ⟨i, b, h1, h2, h3, h4⟩
  · have hu : uintptr s.blocks_ nullptr = 0 := rfl
    rw [hnull, h0, hu]
  · have hmem : b ∈ s.blocks_ := List.getElem?_mem h2
    obtain ⟨k, hk⟩ := hb b hmem
    have hu : uintptr s.blocks_ s.alloc_ptr_ = (b.base + s.alloc_ptr_.off) % SIZE_MOD := by
      unfold uintptr
      rw [h1]
      simp only [blockBase, h2]
    rw [hu]
    unfold SIZE_MOD
    unfold kBlockSize at h4
    omega

/-- C12: bounded waste.  With block base addresses divisible by `align`, in
every state reachable from a fresh arena by `Allocate`/`AllocateAligned`
calls, whenever a call (of either operation) moves the cursor to another
block, that block is a freshly appended block of `kBlockSize` bytes and the
number of bytes of the old block that are discarded (the old value of
`remaining`) is strictly less than `kBlockSize / 4 = 1024`. -/
theorem discarded_remaining_below_quarter_block (sys : Sys) (hsys : SysAligned sys)
    (calls : List Call) (out : List Region) (s : Arena)
    (hrun : run sys Arena.new calls = .ok (out, s))
    (c : Call) (p : Ptr) (s1 : Arena) (hexec : c.exec sys s = .ok (p, s1))
    (hswitch : s1.alloc_ptr_.blk ≠ s.alloc_ptr_.blk) :
    s.alloc_bytes_remaining_ < kBlockSize / 4 ∧ kBlockSize / 4 = 1024 ∧
    s1.alloc_ptr_.blk = some s.blocks_.length ∧
    ∃ a, s1.blocks_ = s.blocks_ ++ [⟨a, kBlockSize⟩] := by
  obtain ⟨hcur, _, _⟩ := run_cursorOK hrun
  have hbases := run_bases_aligned hsys hrun
  have hslop := slopOf_eq_rem_mod hcur hbases
  have fb : ∀ bytes, s.alloc_bytes_remaining_ < bytes + slopOf s →
      AllocateFallback sys s bytes = .ok (p, s1) →
      s.alloc_bytes_remaining_ < kBlockSize / 4 ∧ kBlockSize / 4 = 1024 ∧
      s1.alloc_ptr_.blk = some s.blocks_.length ∧
      ∃ a, s1.blocks_ = s.blocks_ ++ [⟨a, kBlockSize⟩] := by
    intro bytes hlt hf
    obtain ⟨_, hcase⟩ := AllocateFallback_ok hf
    rcases hcase with ⟨_, a, _, hs⟩ | ⟨hb, a, _, hs⟩
    · rw [hs] at hswitch
      exact absurd rfl hswitch
    · rw [hs]
      refine ⟨?_, by decide, rfl, a, rfl⟩
      simp only [kBlockSize]
      omega
  cases c with
  | Allocate bytes =>
    obtain ⟨_, hcase⟩ := Allocate_ok hexec
    rcases hcase with ⟨_, _, hs⟩ | ⟨hlt, hf⟩
    · rw [hs] at hswitch
      exact absurd rfl hswitch
    · exact fb bytes (by omega) hf
  | AllocateAligned bytes =>
    rcases AllocateAligned_ok hexec with ⟨_, _, hs⟩ | ⟨hlt, hf⟩
    · rw [hs] at hswitch
      exact absurd rfl hswitch
    · have hle : addSz bytes (slopOf s) ≤ bytes + slopOf s := by
        unfold addSz
        exact Nat.mod_le _ _
      exact fb bytes (by omega) hf

/-- Instance of C12: with 1020 bytes remaining and `slop = 4`,
`AllocateAligned(1024)` replaces the active block and discards 1020 bytes. -/
theorem discarded_remaining_below_quarter_block_witness :
    (SysAligned bumpSys ∧
      run bumpSys Arena.new [.Allocate 100, .Allocate 2976] =
        .ok ([⟨⟨some 0, 0⟩, 100⟩, ⟨⟨some 0, 100⟩, 2976⟩],
          ⟨⟨some 0, 3076⟩, 1020, [⟨4096, 4096⟩], 4104⟩) ∧
      Call.exec bumpSys ⟨⟨some 0, 3076⟩, 1020, [⟨4096, 4096⟩], 4104⟩ (.AllocateAligned 1024) =
        .ok (⟨some 1, 0⟩, ⟨⟨some 1, 1024⟩, 3072, [⟨4096, 4096⟩, ⟨8224, 4096⟩], 8208⟩) ∧
      (some 1 : Option Nat) ≠ some 0) ∧
    1020 < kBlockSize / 4 :=
  ⟨⟨bumpSys_aligned, by rfl, by rfl, by decide⟩,
    (discarded_remaining_below_quarter_block bumpSys bumpSys_aligned
      [.Allocate 100, .Allocate 2976] [⟨⟨some 0, 0⟩, 100⟩, ⟨⟨some 0, 100⟩, 2976⟩]
      ⟨⟨some 0, 3076⟩, 1020, [⟨4096, 4096⟩], 4104⟩ (by rfl)
      (.AllocateAligned 1024) ⟨some 1, 0⟩
      ⟨⟨some 1, 1024⟩, 3072, [⟨4096, 4096⟩, ⟨8224, 4096⟩], 8208⟩ (by rfl) (by decide)).1⟩

/-! ## The destructor -/

theorem deleteLoop_fst (blocks : List Block) :
    ∀ fuel i, i + fuel = blocks.length →
      (deleteLoop blocks fuel i).map Prod.fst = List.range' i fuel := by
  intro fuel
  induction fuel with
  | zero => intro i _; rfl
  | succ k ih =>
    intro i hi
    have hlt : i < blocks.length := by omega
    simp only [deleteLoop, dif_pos hlt, List.map_cons, List.range'_succ]
    rw [ih (i + 1) (by omega)]

theorem deleteLoop_snd (blocks : List Block) :
    ∀ fuel i, i + fuel = blocks.length →
      (deleteLoop blocks fuel i).map Prod.snd = blocks.drop i := by
  intro fuel
  induction fuel with
  | zero =>
    intro i hi
    rw [List.drop_of_length_le (by omega)]
    rfl
  | succ k ih =>
    intro i hi
    have hlt : i < blocks.length := by omega
    simp only [deleteLoop, dif_pos hlt, List.map_cons]
    rw [ih (i + 1) (by omega), List.drop_eq_getElem_cons hlt]

theorem destructor_fst (s : Arena) :
    s.destructor.map Prod.fst = List.range s.blocks_.length := by
  unfold Arena.destructor
  rw [deleteLoop_fst s.blocks_ s.blocks_.length 0 (by omega), List.range_eq_range']

theorem destructor_snd (s : Arena) : s.destructor.map Prod.snd = s.blocks_ := by
  unfold Arena.destructor
  rw [deleteLoop_snd s.blocks_ s.blocks_.length 0 (by omega)]
  rfl

theorem exec_length_acquires {sys : Sys} {s s1 : Arena} {c : Call} {p : Ptr}
    (h : c.exec sys s = .ok (p, s1)) :
    s1.blocks_.length = s.blocks_.length + (if c.acquires s then 1 else 0) := by
  have fb : ∀ bytes, AllocateFallback sys s bytes = .ok (p, s1) →
      s1.blocks_.length = s.blocks_.length + 1 := by
    intro bytes hf
    rcases AllocateFallback_step hf with ⟨_, a, _, hb, _⟩ | ⟨_, a, _, hb, _⟩ <;>
      rw [hb] <;> simp
  cases c with
  | Allocate bytes =>
    obtain ⟨_, hcase⟩ := Allocate_ok h
    rcases hcase with ⟨hle, _, hs⟩ | ⟨hlt, hf⟩
    · rw [hs]
      simp [Call.acquires, hle]
    · rw [fb bytes hf]
      have hn : ¬ bytes ≤ s.alloc_bytes_remaining_ := by omega
      simp [Call.acquires, hn]
  | AllocateAligned bytes =>
    rcases AllocateAligned_ok h with ⟨hle, _, hs⟩ | ⟨hlt, hf⟩
    · rw [hs]
      simp [Call.acquires, hle]
    · rw [fb bytes hf]
      have hn : ¬ addSz bytes (slopOf s) ≤ s.alloc_bytes_remaining_ := by omega
      simp [Call.acquires, hn]

theorem run_length_acquisitions {sys : Sys} (calls : List Call) :
    ∀ {s s2 : Arena} {out : List Region}, run sys s calls = .ok (out, s2) →
      s2.blocks_.length = s.blocks_.length + acquisitions sys s calls := by
  induction calls with
  | nil =>
    intro s s2 out h
    simp only [run, Except.ok.injEq, Prod.mk.injEq] at h
    rw [← h.2]
    rfl
  | cons c cs ih =>
    intro s s2 out h
    simp only [run] at h
    cases he : c.exec sys s with
    | error e => rw [he] at h; cases h
    | ok q =>
      obtain ⟨p, s1⟩ := q
      rw [he] at h
      simp only at h
      cases hr : run sys s1 cs with
      | error e => rw [hr] at h; cases h
      | ok q2 =>
        obtain ⟨out1, s3⟩ := q2
        rw [hr] at h
        simp only [Except.ok.injEq, Prod.mk.injEq] at h
        have h1 := exec_length_acquires he
        have h2 := ih hr
        rw [← h.2]
        simp only [acquisitions, he]
        omega

theorem exec_bases_nodup {sys : Sys} (hsys : SysFresh sys) {s s1 : Arena} {c : Call}
    {p : Ptr} (hn : (s.blocks_.map Block.base).Nodup) (h : c.exec sys s = .ok (p, s1)) :
    (s1.blocks_.map Block.base).Nodup := by
  have key : ∀ a n, sys s.blocks_ n = some a →
      ((s.blocks_ ++ [(⟨a, n⟩ : Block)]).map Block.base).Nodup := by
    intro a n ha
    have hfresh := hsys _ _ _ ha
    rw [List.map_append, List.map_cons, List.map_nil, ← List.concat_eq_append]
    refine List.Nodup.concat ?_ hn
    intro hmem
    obtain ⟨b, hb, hba⟩ := List.mem_map.1 hmem
    exact hfresh b hb hba
  rcases exec_step h with ⟨h0, _⟩ | ⟨_, a, ha, hbl, _⟩ | ⟨_, a, ha, hbl, _⟩
  · rw [h0]
    exact hn
  · rw [hbl]
    exact key a _ ha
  · rw [hbl]
    exact key a _ ha

theorem le_sum_of_mem_nat {l : List Nat} {x : Nat} (h : x ∈ l) : x ≤ l.sum := by
  induction l with
  | nil => cases h
  | cons y ys ih =>
    simp only [List.sum_cons]
    rcases List.mem_cons.1 h with rfl | hmem
    · omega
    · have := ih hmem
      omega

theorem topSys_fresh : SysFresh topSys := by
  intro blocks n a h b hb hba
  unfold topSys at h
  simp only at h
  split at h
  · simp only [Option.some.injEq] at h
    have hmem : b.base + b.size ∈ blocks.map (fun b => b.base + b.size) :=
      List.mem_map.2 ⟨b, hb, rfl⟩
    have := le_sum_of_mem_nat hmem
    omega
  · cases h

/-- C13: after a run of `Allocate`/`AllocateAligned` calls on a fresh arena
with `k` block acquisitions, the block list holds exactly `k` entries; the
destructor visits the indices `0, ..., k - 1` of the list, each exactly once
and in order, and releases exactly the `k` blocks of the list, one per index;
and when the system allocator never hands out the address of a live block,
the `k` released addresses are pairwise distinct. -/
theorem destructor_releases_every_block_once (sys : Sys) (calls : List Call)
    (out : List Region) (s : Arena) (hrun : run sys Arena.new calls = .ok (out, s)) :
    s.blocks_.length = acquisitions sys Arena.new calls ∧
    s.destructor.length = acquisitions sys Arena.new calls ∧
    s.destructor.map Prod.fst = List.range s.blocks_.length ∧
    (s.destructor.map Prod.fst).Nodup ∧
    s.destructor.map Prod.snd = s.blocks_ ∧
    (SysFresh sys → (s.destructor.map (fun d => d.2.base)).Nodup) := by
  have hlen : s.blocks_.length = acquisitions sys Arena.new calls := by
    have := run_length_acquisitions calls hrun
    simpa [Arena.new] using this
  have hfst := destructor_fst s
  have hsnd := destructor_snd s
  refine ⟨hlen, ?_, hfst, ?_, hsnd, ?_⟩
  · have h1 : (s.destructor.map Prod.snd).length = s.blocks_.length := by rw [hsnd]
    rw [List.length_map] at h1
    omega
  · rw [hfst]
    exact List.nodup_range _
  · intro hsys
    have h0 : (Arena.new.blocks_.map Block.base).Nodup := List.nodup_nil
    have hn : (s.blocks_.map Block.base).Nodup :=
      run_invariant (fun t => (t.blocks_.map Block.base).Nodup)
        (fun _ _ _ _ hp hc => exec_bases_nodup hsys hp hc) calls h0 hrun
    have : s.destructor.map (fun d => d.2.base) = (s.destructor.map Prod.snd).map Block.base := by
      rw [List.map_map]
      rfl
    rw [this, hsnd]
    exact hn

/-- Instance of C13: four calls with three block acquisitions; the destructor
releases the three blocks at indices 0, 1, 2. -/
theorem destructor_releases_every_block_once_witness :
    run topSys Arena.new [.Allocate 100, .Allocate 4000, .AllocateAligned 1024, .Allocate 3000] =
      .ok ([⟨⟨some 0, 0⟩, 100⟩, ⟨⟨some 1, 0⟩, 4000⟩, ⟨⟨some 0, 104⟩, 1024⟩, ⟨⟨some 2, 0⟩, 3000⟩],
        ⟨⟨some 0, 1128⟩, 2968,
          [⟨4096, 4096⟩, ⟨135168, 4000⟩, ⟨2361856, 3000⟩], 11120⟩) ∧
    acquisitions topSys Arena.new
      [.Allocate 100, .Allocate 4000, .AllocateAligned 1024, .Allocate 3000] = 3 ∧
    (⟨⟨some 0, 1128⟩, 2968,
        [⟨4096, 4096⟩, ⟨135168, 4000⟩, ⟨2361856, 3000⟩], 11120⟩ : Arena).destructor =
      [(0, ⟨4096, 4096⟩), (1, ⟨135168, 4000⟩), (2, ⟨2361856, 3000⟩)] ∧
    List.Nodup [(4096 : Nat), 135168, 2361856] :=
  ⟨by rfl, by rfl, by rfl,
    (destructor_releases_every_block_once topSys
      [.Allocate 100, .Allocate 4000, .AllocateAligned 1024, .Allocate 3000]
      [⟨⟨some 0, 0⟩, 100⟩, ⟨⟨some 1, 0⟩, 4000⟩, ⟨⟨some 0, 104⟩, 1024⟩, ⟨⟨some 2, 0⟩, 3000⟩]
      ⟨⟨some 0, 1128⟩, 2968, [⟨4096, 4096⟩, ⟨135168, 4000⟩, ⟨2361856, 3000⟩], 11120⟩
      (by rfl)).2.2.2.2.2 topSys_fresh⟩

/-! ## The cursor and the bytes that remain -/

theorem exec_cursor_blk {sys : Sys} {s s1 : Arena} {c : Call} {p : Ptr}
    (h : c.exec sys s = .ok (p, s1)) :
    (s1.alloc_ptr_.blk = s.alloc_ptr_.blk ∧ (1024 < c.bytes ∨ s1.blocks_ = s.blocks_)) ∨
    (s1.alloc_ptr_.blk = some s.blocks_.length ∧ c.bytes ≤ 1024) := by
  have fb : ∀ bytes, AllocateFallback sys s bytes = .ok (p, s1) →
      (s1.alloc_ptr_.blk = s.alloc_ptr_.blk ∧ (1024 < bytes ∨ s1.blocks_ = s.blocks_)) ∨
      (s1.alloc_ptr_.blk = some s.blocks_.length ∧ bytes ≤ 1024) := by
    intro bytes hf
    obtain ⟨_, hcase⟩ := AllocateFallback_ok hf
    rcases hcase with ⟨hb, a, _, hs⟩ | ⟨hb, a, _, hs⟩
    · subst hs
      exact Or.inl ⟨rfl, Or.inl hb⟩
    · subst hs
      exact Or.inr ⟨rfl, hb⟩
  cases c with
  | Allocate bytes =>
    obtain ⟨_, hcase⟩ := Allocate_ok h
    rcases hcase with ⟨_, _, hs⟩ | ⟨_, hf⟩
    · subst hs
      exact Or.inl ⟨rfl, Or.inr rfl⟩
    · exact fb bytes hf
  | AllocateAligned bytes =>
    rcases AllocateAligned_ok h with ⟨_, _, hs⟩ | ⟨_, hf⟩
    · subst hs
      exact Or.inl ⟨rfl, Or.inr rfl⟩
    · exact fb bytes hf

theorem exec_length_mono {sys : Sys} {s s1 : Arena} {c : Call} {p : Ptr}
    (h : c.exec sys s = .ok (p, s1)) : s.blocks_.length ≤ s1.blocks_.length := by
  rcases exec_step h with ⟨h0, _⟩ | ⟨_, a, _, hb, _⟩ | ⟨_, a, _, hb, _⟩
  · rw [h0]
  · rw [hb]; simp
  · rw [hb]; simp

theorem run_dedicated_block_never_active {sys : Sys} {pre post : List Call}
    {out0 out2 : List Region} {s s1 s2 : Arena} {c : Call} {p : Ptr}
    (hpre : run sys Arena.new pre = .ok (out0, s)) (hexec : c.exec sys s = .ok (p, s1))
    (hbig : 1024 < c.bytes) (hnew : s1.blocks_ ≠ s.blocks_)
    (hpost : run sys s1 post = .ok (out2, s2)) :
    p = ⟨some s.blocks_.length, 0⟩ ∧ s2.alloc_ptr_.blk ≠ some s.blocks_.length := by
  obtain ⟨_, hown, _⟩ := run_cursorOK hpre
  have hp : p = ⟨some s.blocks_.length, 0⟩ := by
    cases c with
    | Allocate bytes =>
      obtain ⟨_, hcase⟩ := Allocate_ok hexec
      rcases hcase with ⟨_, _, hs⟩ | ⟨_, hf⟩
      · rw [hs] at hnew
        exact absurd rfl hnew
      · exact (AllocateFallback_ok hf).1
    | AllocateAligned bytes =>
      rcases AllocateAligned_ok hexec with ⟨_, _, hs⟩ | ⟨_, hf⟩
      · rw [hs] at hnew
        exact absurd rfl hnew
      · exact (AllocateFallback_ok hf).1
  refine ⟨hp, ?_⟩
  have h1 : s1.alloc_ptr_.blk ≠ some s.blocks_.length ∧ s.blocks_.length < s1.blocks_.length := by
    rcases exec_step hexec with ⟨h0, _⟩ | ⟨_, a, _, hb, _⟩ | ⟨hsm, _⟩
    · exact absurd h0 hnew
    · rcases exec_cursor_blk hexec with ⟨hsame, _⟩ | ⟨_, hsm⟩
      · refine ⟨?_, by rw [hb]; simp⟩
        rw [hsame]
        intro heq
        have := hown _ heq
        omega
      · omega
    · omega
  have hinv := run_invariant
    (fun t => t.alloc_ptr_.blk ≠ some s.blocks_.length ∧ s.blocks_.length < t.blocks_.length)
    (fun t c q t1 hq he => by
      have hmono := exec_length_mono he
      refine ⟨?_, by omega⟩
      rcases exec_cursor_blk he with ⟨hsame, _⟩ | ⟨hnewblk, _⟩
      · rw [hsame]
        exact hq.1
      · rw [hnewblk]
        intro heq
        simp only [Option.some.injEq] at heq
        omega) post h1 hpost
  exact hinv.1

theorem run_remaining_unreturned {sys : Sys} {calls : List Call} {out : List Region}
    {s : Arena} (hex : ∀ c ∈ calls, c.Exact) (h : run sys Arena.new calls = .ok (out, s)) :
    ∀ r ∈ out, ¬ r.Overlaps ⟨s.alloc_ptr_, s.alloc_bytes_remaining_⟩ := by
  obtain ⟨hs, _⟩ := run_sound calls hex Sound_new h
  rw [List.append_nil] at hs
  intro r hr hov
  have hb := hs.below r (List.mem_reverse.2 hr) hov.1
  have := hov.2
  simp only at this
  omega

/-- C14 at the failing input: after `Allocate(1)` and
`AllocateAligned(2^64 - 7)` on a fresh arena the cursor is consistent (offset 1
of the 4096-byte block, `1 + 4095 = 4096`), but the second call has returned
offset 8 of that block for `2^64 - 7` bytes without moving the cursor, so the
4095 `remaining` bytes starting at the cursor share bytes with a region
returned by an earlier call. -/
theorem remaining_bytes_returned_after_wrap :
    run bumpSys Arena.new [.Allocate 1, .AllocateAligned 18446744073709551609] =
      .ok ([⟨⟨some 0, 0⟩, 1⟩, ⟨⟨some 0, 8⟩, 18446744073709551609⟩],
        ⟨⟨some 0, 1⟩, 4095, [⟨4096, 4096⟩], 4104⟩) ∧
    CursorOK ⟨⟨some 0, 1⟩, 4095, [⟨4096, 4096⟩], 4104⟩ ∧
    Region.Overlaps ⟨⟨some 0, 8⟩, 18446744073709551609⟩ ⟨⟨some 0, 1⟩, 4095⟩ := by
  refine ⟨by rfl, ?_, by decide⟩
  exact Or.inr ⟨0, ⟨4096, 4096⟩, rfl, rfl, rfl, rfl⟩

end leveldb
